import Mathlib

/-!
# gctl: group traversal and bulk clone

A shallow embedding of `gitlab/gitlab.go` and `cmd/commands.go`.

* The remote service (`c.gl`, the go-gitlab client) is a record of functions.
* `listGroupProjects` is the pagination loop, with fuel, returning also the
  requests it issued.
* `ListGroupProjects` and `Clone` spawn goroutines. Their fan-in loops are
  step machines driven by an explicit list of scheduler choices, so that a
  statement "for every scheduling" is a statement over all such lists.
-/

namespace Gctl

/-! ## Data model -/

/-- Go `error` values; `none : Option Err` is the nil error. -/
abbrev Err := String

/-- The fields of `gitlab.Project` that the program reads. -/
structure Project where
  ID : Int
  PathWithNamespace : String
deriving DecidableEq, Repr

/-- The fields of `gitlab.Group` that the program reads. -/
structure Group where
  FullPath : String
deriving DecidableEq, Repr

/-- Pagination options of a listing request (`gitlab.ListOptions`). -/
structure ListOptions where
  PerPage : Int
  Page : Int
deriving DecidableEq, Repr

/-- Options of a group project listing (`gitlab.ListGroupProjectsOptions`);
`Membership` is a `*bool`, nil when unset. -/
structure ListGroupProjectsOptions where
  ListOptions : ListOptions
  Membership : Option Bool
deriving DecidableEq, Repr

/-- Page metadata of a response (`gitlab.Response`). -/
structure Response where
  CurrentPage : Int
  TotalPages : Int
  NextPage : Int
deriving DecidableEq, Repr

/-- The remote service as seen through `c.gl`: one page of a group's direct
projects, and the subgroups of a group. -/
structure Remote where
  ListGroupProjects : String → ListGroupProjectsOptions → Except Err (List Project × Response)
  ListSubgroups : String → Except Err (List Group)

/-! ## Pagination: `Client.listGroupProjects` -/

/-- The options `listGroupProjects` starts with, at a given page:
`PerPage: 20` and `Membership = &true`. -/
def pageRequest (page : Int) : ListGroupProjectsOptions :=
  { ListOptions := { PerPage := 20, Page := page }, Membership := some true }

/-- The `for` loop of `listGroupProjects` (gitlab.go 189-206). `projects` is
the accumulator, `reqs` the requests sent so far. One unit of fuel is one
iteration; `none` is fuel exhausted. On a fetch error the loop returns the
accumulator as it stands together with the error. -/
def listGroupProjectsLoop (remote : Remote) (group : String) :
    Nat → ListGroupProjectsOptions → List Project → List ListGroupProjectsOptions →
    Option (List Project × Option Err × List ListGroupProjectsOptions)
  | 0, _, _, _ => none
  | fuel + 1, projectOps, projects, reqs =>
    match remote.ListGroupProjects group projectOps with
    | .error err => some (projects, some err, reqs ++ [projectOps])
    | .ok (ps, resp) =>
      let projects := projects ++ ps
      if resp.CurrentPage ≥ resp.TotalPages then
        some (projects, none, reqs ++ [projectOps])
      else
        listGroupProjectsLoop remote group fuel
          { projectOps with ListOptions := { projectOps.ListOptions with Page := resp.NextPage } }
          projects (reqs ++ [projectOps])

/-- `Client.listGroupProjects` with the requests it issued (gitlab.go 176-209). -/
def listGroupProjectsTrace (remote : Remote) (fuel : Nat) (group : String) :
    Option (List Project × Option Err × List ListGroupProjectsOptions) :=
  listGroupProjectsLoop remote group fuel (pageRequest 1) [] []

/-- `Client.listGroupProjects`: the returned pair `(projects, err)`. -/
def listGroupProjects (remote : Remote) (fuel : Nat) (group : String) :
    Option (List Project × Option Err) :=
  (listGroupProjectsTrace remote fuel group).map fun r => (r.1, r.2.1)

/-! ## Traversal: `Client.ListSubGroups` and `Client.ListGroupProjects` -/

/-- A computation that either yields a value or ends the process through
`log.Fatal` (which calls `os.Exit(1)` after printing). -/
inductive Proc (α : Type) where
  | value (a : α)
  | fatal (msg : Err)
deriving DecidableEq, Repr

/-- `Client.ListSubGroups` (gitlab.go 25-32): one fetch; `log.Fatal(err)` when
the fetch fails, so no error is ever handed back to the caller. -/
def ListSubGroups (remote : Remote) (group : String) : Proc (List Group) :=
  match remote.ListSubgroups group with
  | .error err => .fatal err
  | .ok groups => .value groups

/-- Where a subgroup worker goroutine (gitlab.go 88-96) stands once its
recursive call has returned: about to send, about to call `wg.Done()`, or
finished. -/
inductive WPhase where
  | ready
  | sent
  | done
deriving DecidableEq, Repr

/-- A subgroup worker: the pair `(ps, err)` its recursive call returned, and
its phase. -/
structure TWorker where
  ps : List Project
  err : Option Err
  phase : WPhase
deriving DecidableEq, Repr

/-- State of one `ListGroupProjects` call after the workers were spawned.
`projectsC` and `errC` are channels of capacity 1 (gitlab.go 82, 84): the
buffered element, if any. `wg` is the WaitGroup counter, `wC` tells whether
the channel `wC` has been closed, `projects` and `err` are the variables of
the enclosing function, and `returned` tells whether line 110 was executed. -/
structure TState where
  workers : List TWorker
  projectsC : Option (List Project)
  errC : Option Err
  wg : Nat
  wC : Bool
  projects : List Project
  err : Option Err
  returned : Bool
deriving DecidableEq, Repr

/-- One scheduler choice in the fan-in of `ListGroupProjects`. -/
inductive TAction where
  /-- worker `i` executes its send, line 91 or line 93 -/
  | send (i : Nat)
  /-- worker `i` executes `wg.Done()`, line 95 -/
  | done (i : Nat)
  /-- the waiter goroutine passes `wg.Wait()` and closes `wC`, lines 100-101 -/
  | closeW
  /-- the select takes `case ps := <-projectsC`, lines 106-107 -/
  | recvProjects
  /-- the select takes `case err = <-errC`, line 108 -/
  | recvErr
  /-- the select takes `case <-wC` and returns, lines 109-110 -/
  | ret
deriving DecidableEq, Repr

/-- State right after the `go` statements of lines 87-102: `projects` holds the
direct listing, `err` is nil, `wg` was set by `wg.Add(len(groups))`. -/
def TState.start (direct : List Project) (results : List (List Project × Option Err)) : TState :=
  { workers := results.map fun r => { ps := r.1, err := r.2, phase := .ready }
    projectsC := none
    errC := none
    wg := results.length
    wC := false
    projects := direct
    err := none
    returned := false }

/-- One step of the fan-in; `none` when the chosen action is not enabled.
A send on a buffered channel proceeds only while the buffer has room; a
receive proceeds only when an element is buffered; `case <-wC` proceeds only
once `wC` is closed. When several cases of the select can proceed Go picks
any one of them, which is the freedom the action list has here. -/
def TState.step (s : TState) : TAction → Option TState
  | .send i =>
    match s.workers[i]? with
    | none => none
    | some w =>
      match w.phase, w.err with
      | .ready, some e =>
        match s.errC with
        | none => some { s with errC := some e, workers := s.workers.set i { w with phase := .sent } }
        | some _ => none
      | .ready, none =>
        match s.projectsC with
        | none => some { s with projectsC := some w.ps, workers := s.workers.set i { w with phase := .sent } }
        | some _ => none
      | _, _ => none
  | .done i =>
    match s.workers[i]? with
    | none => none
    | some w =>
      match w.phase with
      | .sent => some { s with wg := s.wg - 1, workers := s.workers.set i { w with phase := .done } }
      | _ => none
  | .closeW =>
    match s.wg, s.wC with
    | 0, false => some { s with wC := true }
    | _, _ => none
  | .recvProjects =>
    match s.returned, s.projectsC with
    | false, some ps => some { s with projects := s.projects ++ ps, projectsC := none }
    | _, _ => none
  | .recvErr =>
    match s.returned, s.errC with
    | false, some e => some { s with err := some e, errC := none }
    | _, _ => none
  | .ret =>
    match s.returned, s.wC with
    | false, true => some { s with returned := true }
    | _, _ => none

/-- Run a list of scheduler choices. -/
def TState.run (s : TState) : List TAction → Option TState
  | [] => some s
  | a :: as =>
    match s.step a with
    | none => none
    | some t => t.run as

/-- The fan-in of lines 99-112 under a schedule: the pair returned at line 110,
or `none` when the schedule is not a complete execution. -/
def fanIn (direct : List Project) (results : List (List Project × Option Err))
    (acts : List TAction) : Option (List Project × Option Err) :=
  match (TState.start direct results).run acts with
  | none => none
  | some s => if s.returned then some (s.projects, s.err) else none

/-- What a traversal call does: return `(projects, err)`, end the process, or
not finish (fuel exhausted, or the schedule given is not a complete one). -/
inductive Outcome where
  | returned (projects : List Project) (err : Option Err)
  | fatal (msg : Err)
  | stuck
deriving DecidableEq, Repr

/-- A schedule for a whole traversal: the fan-in choices of this call and one
schedule per subgroup worker. -/
inductive Sched where
  | mk (fanin : List TAction) (children : List Sched)

/-- The message of the first worker that ended the process, if any. -/
def firstFatal : List Outcome → Option Err
  | [] => none
  | .fatal msg :: _ => some msg
  | _ :: rest => firstFatal rest

/-- The pairs returned by the workers, when every one of them returned. -/
def childResults : List Outcome → Option (List (List Project × Option Err))
  | [] => some []
  | .returned ps err :: rest => (childResults rest).map fun rs => (ps, err) :: rs
  | _ :: _ => none

/-- `Client.ListGroupProjects` (gitlab.go 71-113). The goroutines of different
subgroups share nothing but the channels of their parent, so each worker's
recursive call is evaluated under its own schedule and the parent's fan-in is
then run on the pairs the workers obtained. A `log.Fatal` in any worker ends
the process, whatever the other workers do. -/
def ListGroupProjects (remote : Remote) : Nat → String → Sched → Outcome
  | 0, _, _ => .stuck
  | fuel + 1, group, .mk acts kids =>
    match listGroupProjects remote (fuel + 1) group with
    | none => .stuck
    | some (projects, some err) => .returned projects (some err)
    | some (projects, none) =>
      match ListSubGroups remote group with
      | .fatal msg => .fatal msg
      | .value groups =>
        let outs := List.zipWith (fun g k => ListGroupProjects remote fuel g.FullPath k) groups kids
        match firstFatal outs with
        | some msg => .fatal msg
        | none =>
          if kids.length ≠ groups.length then .stuck
          else
            match childResults outs with
            | none => .stuck
            | some results =>
              match fanIn projects results acts with
              | none => .stuck
              | some (ps, err) => .returned ps err

/-! ## Destination path -/

/-- The elements of a path between its `/` separators. -/
def pathElements : List Char → List (List Char)
  | [] => [[]]
  | c :: cs =>
    match pathElements cs with
    | [] => [[c]]
    | e :: es => if c = '/' then [] :: e :: es else (c :: e) :: es

/-- One element processed by the loop of `filepath.Clean`. `out` holds the
elements written so far, last one first; `dotdot` counts the leading `..`
elements that may not be removed. Empty and `.` elements are skipped, `..`
removes the last element when there is one to remove, is written out on an
unrooted path, and is dropped at the root. -/
def cleanElement (rooted : Bool) (st : List (List Char) × Nat) (e : List Char) :
    List (List Char) × Nat :=
  if e = [] ∨ e = ['.'] then st
  else if e = ['.', '.'] then
    if st.1.length > st.2 then (st.1.tail, st.2)
    else if rooted then st
    else (e :: st.1, st.1.length + 1)
  else (e :: st.1, st.2)

/-- Join elements with `/`. -/
def joinElements : List (List Char) → List Char
  | [] => []
  | [e] => e
  | e :: es => e ++ '/' :: joinElements es

/-- `filepath.Clean` of the Go standard library on a Unix system (separator
`/`, no volume name): the shortest path equivalent to `path` by purely lexical
processing. It never ends in a slash unless it is the root, and the empty
path becomes `.`. -/
def Clean (path : String) : String :=
  let cs := path.data
  let rooted := cs.head? = some '/'
  let out := ((pathElements cs).foldl (cleanElement rooted) ([], 0)).1.reverse
  let body := joinElements out
  if rooted then ⟨'/' :: body⟩
  else if body = [] then "." else ⟨body⟩

/-- The default of the `--directory` flag of the clone command
(commands.go 118). -/
def directoryDefault : String := "/tmp/gctl/"

/-- The destination of a project inside `Client.Clone` (gitlab.go 139):
`filepath.Clean(directory) + "/" + p.PathWithNamespace`. -/
def clonePath (directory : String) (p : Project) : String :=
  Clean directory ++ "/" ++ p.PathWithNamespace

/-- The remote URL given to the clone primitive (gitlab.go 146). -/
def cloneURL (p : Project) : String :=
  "https://gitlab.com/" ++ p.PathWithNamespace

/-! ## Bulk clone: `Client.Clone` -/

/-- A cloned working copy (`*git.Repository`), identified by where it lives. -/
structure Repo where
  path : String
deriving DecidableEq, Repr

/-- The `git.CloneOptions` that `Clone` fills in (gitlab.go 141-148). -/
structure CloneOptions where
  Username : String
  Password : String
  URL : String
  RecurseSubmodules : Nat
deriving DecidableEq, Repr

/-- The result `(r, err)` of one `git.PlainClone` call. -/
inductive Cloned where
  | ok (r : Repo)
  | failed (err : Err)
deriving DecidableEq, Repr

/-- The clone primitive `git.PlainClone`, as an answer for every attempt: the
index of the worker, the destination path and the options. -/
abbrev Git := Nat → String → CloneOptions → Cloned

/-- The options `Clone` passes for a project; the recursion depth is go-git's
`DefaultSubmoduleRecursionDepth`, which is 10. -/
def cloneOptions (accessToken : String) (p : Project) : CloneOptions :=
  { Username := "git", Password := accessToken, URL := cloneURL p, RecurseSubmodules := 10 }

/-- The size of the weighted semaphore of `Clone` (gitlab.go 129). -/
def semSize : Nat := 10

/-- Where a clone worker goroutine (gitlab.go 136-156) stands:
`pending` before `sem.Acquire` returns, `admitted` once it returned,
`cloned` once `git.PlainClone` returned, `sent` after the channel send,
`done` after `wg.Done()`, and `exited` after the deferred `sem.Release(1)`. -/
inductive CPhase where
  | pending
  | admitted
  | cloned (res : Cloned)
  | sent
  | done
  | exited
deriving DecidableEq, Repr

/-- A clone worker: its project, its phase, and whether its `sem.Acquire`
obtained a permit (the worker ignores the error `Acquire` returns). -/
structure CWorker where
  project : Project
  phase : CPhase
  permit : Bool
deriving DecidableEq, Repr

/-- State of one `Clone` call after the workers were spawned. `sem` is the
number of permits currently held, `errC` the element buffered in the error
channel of capacity 1 (`projectsC` is unbuffered and holds nothing), `wg` the
WaitGroup counter, `wC` whether that channel is closed, `repos` and `errors`
the result slices, `returned` whether line 171 was executed (the deferred
`cancel()` then cancels the context), `panicked` whether `sem.Release` was
called with no permit held, and `log` the lines written through `log`. -/
structure CState where
  workers : List CWorker
  sem : Nat
  errC : Option Err
  wg : Nat
  wC : Bool
  repos : List Repo
  errors : List Err
  returned : Bool
  panicked : Bool
  log : List String
deriving DecidableEq, Repr

/-- One scheduler choice in `Clone`. -/
inductive CAction where
  /-- worker `i`: `sem.Acquire` obtains a permit, line 137 -/
  | acquire (i : Nat)
  /-- worker `i`: `sem.Acquire` returns the error of the cancelled context -/
  | acquireCancelled (i : Nat)
  /-- worker `i`: progress line and `git.PlainClone`, lines 139-148 -/
  | clone (i : Nat)
  /-- worker `i`: the send of line 150 or of line 153 -/
  | send (i : Nat)
  /-- worker `i`: `wg.Done()`, line 155 -/
  | done (i : Nat)
  /-- worker `i`: the deferred `sem.Release(1)`, line 138 -/
  | release (i : Nat)
  /-- the waiter goroutine passes `wg.Wait()` and closes `wC`, lines 160-161 -/
  | closeW
  /-- the select takes `case err := <-errC`, lines 168-169 -/
  | recvErr
  /-- the select takes `case <-wC` and returns, lines 170-171 -/
  | ret
deriving DecidableEq, Repr

/-- State right after the `go` statements of lines 135-162. -/
def CState.start (projects : List Project) : CState :=
  { workers := projects.map fun p => { project := p, phase := .pending, permit := false }
    sem := 0
    errC := none
    wg := projects.length
    wC := false
    repos := []
    errors := []
    returned := false
    panicked := false
    log := [] }

/-- Replace worker `i`. -/
def CState.setWorker (s : CState) (i : Nat) (w : CWorker) : CState :=
  { s with workers := s.workers.set i w }

/-- One step of `Clone`; `none` when the chosen action is not enabled.
`sem.Acquire(ctx, 1)` obtains a permit only while fewer than `semSize` are
held, and may fail only once the context is cancelled. A send on the
unbuffered `projectsC` completes together with the receive of line 166, so it
needs the select loop to be still running; a send on `errC` needs room in its
buffer. `sem.Release(1)` with no permit held panics in the library. -/
def CState.step (git : Git) (directory accessToken : String) (s : CState) :
    CAction → Option CState
  | .acquire i =>
    match s.workers[i]? with
    | none => none
    | some w =>
      match w.phase with
      | .pending =>
        if s.sem < semSize then
          some { s.setWorker i { w with phase := .admitted, permit := true } with sem := s.sem + 1 }
        else none
      | _ => none
  | .acquireCancelled i =>
    match s.workers[i]? with
    | none => none
    | some w =>
      match w.phase, s.returned with
      | .pending, true => some (s.setWorker i { w with phase := .admitted, permit := false })
      | _, _ => none
  | .clone i =>
    match s.workers[i]? with
    | none => none
    | some w =>
      match w.phase with
      | .admitted =>
        let path := clonePath directory w.project
        some { s.setWorker i
                { w with phase := .cloned (git i path (cloneOptions accessToken w.project)) } with
               log := s.log ++ ["Cloning: " ++ path] }
      | _ => none
  | .send i =>
    match s.workers[i]? with
    | none => none
    | some w =>
      match w.phase with
      | .cloned (.ok r) =>
        if s.returned then none
        else some { s.setWorker i { w with phase := .sent } with repos := s.repos ++ [r] }
      | .cloned (.failed err) =>
        match s.errC with
        | none =>
          some { s.setWorker i { w with phase := .sent } with
                 errC := some err
                 log := s.log ++ [err ++ ": " ++ clonePath directory w.project] }
        | some _ => none
      | _ => none
  | .done i =>
    match s.workers[i]? with
    | none => none
    | some w =>
      match w.phase with
      | .sent => some { s.setWorker i { w with phase := .done } with wg := s.wg - 1 }
      | _ => none
  | .release i =>
    match s.workers[i]? with
    | none => none
    | some w =>
      match w.phase with
      | .done =>
        if s.sem = 0 then some { s.setWorker i { w with phase := .exited } with panicked := true }
        else some { s.setWorker i { w with phase := .exited } with sem := s.sem - 1 }
      | _ => none
  | .closeW =>
    match s.wg, s.wC with
    | 0, false => some { s with wC := true }
    | _, _ => none
  | .recvErr =>
    match s.returned, s.errC with
    | false, some e => some { s with errors := s.errors ++ [e], errC := none }
    | _, _ => none
  | .ret =>
    match s.returned, s.wC with
    | false, true => some { s with returned := true }
    | _, _ => none

/-- Run a list of scheduler choices. -/
def CState.run (git : Git) (directory accessToken : String) (s : CState) :
    List CAction → Option CState
  | [] => some s
  | a :: as =>
    match s.step git directory accessToken a with
    | none => none
    | some t => t.run git directory accessToken as

/-- `Client.Clone` (gitlab.go 116-174) under a schedule: the pair
`(repos, errors)` returned at line 171, or `none` when the schedule does not
reach that line. -/
def Clone (git : Git) (directory accessToken : String) (projects : List Project)
    (acts : List CAction) : Option (List Repo × List Err) :=
  match (CState.start projects).run git directory accessToken acts with
  | none => none
  | some s => if s.returned then some (s.repos, s.errors) else none

/-- Does the worker stand between its `sem.Acquire` and its `sem.Release`. -/
def CWorker.inGate (w : CWorker) : Bool :=
  match w.phase with
  | .admitted | .cloned _ | .sent | .done => true
  | _ => false

/-- Does the worker stand before its `wg.Done()`. -/
def CWorker.beforeDone (w : CWorker) : Bool :=
  match w.phase with
  | .pending | .admitted | .cloned _ | .sent => true
  | _ => false

/-- Number of workers between acquiring the gate and releasing it. -/
def inGateCount (ws : List CWorker) : Nat :=
  (ws.map fun w => if w.inGate then 1 else 0).sum

/-- Number of workers executing `git.PlainClone`: admitted, not yet back. -/
def inFlightCount (ws : List CWorker) : Nat :=
  (ws.map fun w => if w.phase = .admitted then 1 else 0).sum

/-! ## The commands: `treeCmd` and `cloneCmd` -/

/-- What a command does that can be seen from outside. -/
inductive Event where
  /-- a line on standard output (`fmt.Println`) -/
  | println (line : String)
  /-- a line through `log.Println` -/
  | logPrintln (line : String)
  /-- `remote.Clone(directory, accessToken, projects)` is called -/
  | cloneCalled (directory accessToken : String) (projects : List Project)
  /-- `log.Fatalln`: the message is printed and the process exits with status 1 -/
  | fatal (msg : Err)
  /-- the command does not finish -/
  | hang
deriving DecidableEq, Repr

/-- Everything a command run depends on: the flag values, the remote that
answers for a token, the clone primitive, and the scheduling of the
goroutines of the traversal and of the clone. -/
structure Env where
  flags : String → Except Err String
  connect : String → Remote
  git : Git
  fuel : Nat
  sched : Sched
  cloneSched : List CAction

/-- The `Run` function of `treeCmd` (commands.go 25-42). -/
def treeCmd (env : Env) : List Event :=
  match env.flags "gitlab_access_token" with
  | .error err => [.fatal err]
  | .ok accessToken =>
    let remote := env.connect accessToken
    match env.flags "group" with
    | .error err => [.fatal err]
    | .ok group =>
      match ListGroupProjects remote env.fuel group env.sched with
      | .stuck => [.hang]
      | .fatal msg => [.fatal msg]
      | .returned _ (some err) => [.fatal err]
      | .returned projects none => projects.map fun project => .println project.PathWithNamespace

/-- The `Run` function of `cloneCmd` (commands.go 52-75). In Go `errors != nil`
holds exactly when something was appended to the slice. -/
def cloneCmd (env : Env) : List Event :=
  match env.flags "gitlab_access_token" with
  | .error err => [.fatal err]
  | .ok accessToken =>
    match env.flags "directory" with
    | .error err => [.fatal err]
    | .ok directory =>
      let remote := env.connect accessToken
      match env.flags "group" with
      | .error err => [.fatal err]
      | .ok group =>
        match ListGroupProjects remote env.fuel group env.sched with
        | .stuck => [.hang]
        | .fatal msg => [.fatal msg]
        | .returned _ (some err) => [.fatal err]
        | .returned projects none =>
          match Clone env.git directory accessToken projects env.cloneSched with
          | none => [.cloneCalled directory accessToken projects, .hang]
          | some (_, errors) =>
            if errors ≠ [] then
              [.cloneCalled directory accessToken projects, .logPrintln "Errors when cloning repos"]
            else [.cloneCalled directory accessToken projects]

/-! ## Reachable-state facts and complete schedules -/

/-- Number of workers that have not yet called `wg.Done()`. -/
def beforeDoneCount (ws : List CWorker) : Nat :=
  (ws.map fun w => if w.beforeDone then 1 else 0).sum

/-- The facts that hold in every state `Clone` can reach: the permits held
are exactly those of the workers inside the gate, they number at most
`semSize`, `sem.Release` never ran without a permit, every worker inside the
gate obtained its permit, the WaitGroup counter is the number of workers
still before `wg.Done()`, `wC` is closed only at counter zero, and the
function returns only after `wC` was closed. -/
structure CInv (s : CState) : Prop where
  held : s.sem = inGateCount s.workers
  bound : s.sem ≤ semSize
  sound : s.panicked = false
  admitted : ∀ w ∈ s.workers, w.inGate = true → w.permit = true
  counter : s.wg = beforeDoneCount s.workers
  closing : s.wC = true → s.wg = 0
  returning : s.returned = true → s.wC = true

/-- The projects of the workers whose call returned a nil error: what the
workers send on `projectsC`. -/
def okProjects (results : List (List Project × Option Err)) : List Project :=
  (results.map fun r => match r.2 with
    | none => r.1
    | some _ => []).flatten

/-- What a worker has yet to send on `projectsC`. -/
def TWorker.pendingOk (w : TWorker) : List Project :=
  match w.phase, w.err with
  | .ready, none => w.ps
  | _, _ => []

/-- What the workers have yet to send on `projectsC`. -/
def pendingOk (ws : List TWorker) : List Project :=
  (ws.map TWorker.pendingOk).flatten

/-- Number of subgroup workers that have not yet called `wg.Done()`. -/
def notDoneCount (ws : List TWorker) : Nat :=
  (ws.map fun w => if w.phase = .done then 0 else 1).sum

/-- The facts that hold in every state the fan-in of `ListGroupProjects` can
reach: the projects collected, buffered and still to be sent are together
the direct listing plus what the nil-error workers returned; the collected
list starts with the direct listing; the WaitGroup counter is the number of
workers before `wg.Done()`; `wC` is closed only at counter zero; the function
returns only after `wC` was closed. -/
structure TInv (direct : List Project) (results : List (List Project × Option Err))
    (s : TState) : Prop where
  merged : List.Perm (s.projects ++ s.projectsC.getD [] ++ pendingOk s.workers)
    (direct ++ okProjects results)
  leading : ∃ more, s.projects = direct ++ more
  waiting : s.wg = notDoneCount s.workers
  signal : s.wC = true → s.wg = 0
  leaving : s.returned = true → s.wC = true

/-- The receive of the select that takes what a worker with this result sends. -/
def recvFor (r : List Project × Option Err) : TAction :=
  match r.2 with
  | none => .recvProjects
  | some _ => .recvErr

/-- One round per worker, from worker `k` on: the worker sends, the select
receives, the worker calls `wg.Done()`. -/
def drainRounds : Nat → List (List Project × Option Err) → List TAction
  | _, [] => []
  | k, r :: rs => .send k :: recvFor r :: .done k :: drainRounds (k + 1) rs

/-- A complete schedule of the fan-in in which every message is received
before the completion signal: one round per worker, then the waiter closes
`wC` and the select returns. -/
def drainSchedule (results : List (List Project × Option Err)) : List TAction :=
  drainRounds 0 results ++ [.closeW, .ret]

/-- The value of `err` after the errors of these workers were received in
order, starting from `e`. -/
def lastErr : List (List Project × Option Err) → Option Err → Option Err
  | [], e => e
  | r :: rs, e =>
    lastErr rs (match r.2 with
      | some x => some x
      | none => e)

/-- A worker with the given result and phase. -/
def TWorker.of (phase : WPhase) (r : List Project × Option Err) : TWorker :=
  { ps := r.1, err := r.2, phase := phase }

/-! ## Concrete remotes and schedules -/

/-- Page `k` of a listing, as a request. -/
def pageAt (k : Nat) : ListGroupProjectsOptions := pageRequest (k : Int)

/-- A single-page answer. -/
def onePage (ps : List Project) : Except Err (List Project × Response) :=
  .ok (ps, { CurrentPage := 1, TotalPages := 1, NextPage := 0 })

/-- Scenario A of the specification: `org` owns `org/a` and has the single
subgroup `org/team`, which owns `org/team/b` and has no subgroups. -/
def orgRemote : Remote where
  ListGroupProjects := fun g o =>
    if o ≠ pageAt 1 then .error "no such page"
    else if g = "org" then onePage [⟨1, "org/a"⟩]
    else if g = "org/team" then onePage [⟨2, "org/team/b"⟩]
    else .error "404 Group Not Found"
  ListSubgroups := fun g =>
    if g = "org" then .ok [⟨"org/team"⟩]
    else if g = "org/team" then .ok []
    else .error "404 Group Not Found"

/-- A group without subgroups: the waiter closes `wC`, the select returns. -/
def leafSched : Sched := .mk [.closeW, .ret] []

/-- One worker; its message is received before the worker calls `wg.Done()`. -/
def drainedSched : Sched :=
  .mk [.send 0, .recvProjects, .done 0, .closeW, .ret] [leafSched]

/-- One worker; its message sits in the channel buffer while the worker calls
`wg.Done()` and the waiter closes `wC`; the select, with two cases ready,
takes `case <-wC`. -/
def racedSched : Sched :=
  .mk [.send 0, .done 0, .closeW, .ret] [leafSched]

/-- A group `org` whose direct listing has two pages. -/
def twoPageRemote : Remote where
  ListGroupProjects := fun g o =>
    if g ≠ "org" then .error "404 Group Not Found"
    else if o = pageAt 1 then
      .ok ([⟨1, "org/a"⟩], { CurrentPage := 1, TotalPages := 2, NextPage := 2 })
    else if o = pageAt 2 then
      .ok ([⟨2, "org/b"⟩], { CurrentPage := 2, TotalPages := 2, NextPage := 0 })
    else .error "no such page"
  ListSubgroups := fun _ => .ok []

/-- A group `org` whose first page is served and whose second page fails; its
subgroup listing would fail as well. -/
def brokenPageRemote : Remote where
  ListGroupProjects := fun g o =>
    if g ≠ "org" then .error "404 Group Not Found"
    else if o = pageAt 1 then
      .ok ([⟨1, "org/a"⟩], { CurrentPage := 1, TotalPages := 2, NextPage := 2 })
    else .error "502 Bad Gateway"
  ListSubgroups := fun _ => .error "500 Internal Server Error"

/-- A three-level tree. `org` owns `org/a` and has the subgroups `org/team`
and `org/other`; `org/team` owns `org/team/b` and has the subgroup
`org/team/sub`, whose project listing fails; `org/other` owns `org/other/c`.
Every other fetch succeeds. -/
def deepRemote : Remote where
  ListGroupProjects := fun g o =>
    if o ≠ pageAt 1 then .error "no such page"
    else if g = "org" then onePage [⟨1, "org/a"⟩]
    else if g = "org/team" then onePage [⟨2, "org/team/b"⟩]
    else if g = "org/other" then onePage [⟨3, "org/other/c"⟩]
    else .error "403 Forbidden"
  ListSubgroups := fun g =>
    if g = "org" then .ok [⟨"org/team"⟩, ⟨"org/other"⟩]
    else if g = "org/team" then .ok [⟨"org/team/sub"⟩]
    else .ok []

/-- One worker that reports an error; the error is received before the
worker calls `wg.Done()`. -/
def errDrainedSched : Sched :=
  .mk [.send 0, .recvErr, .done 0, .closeW, .ret] [leafSched]

/-- A schedule for `deepRemote` in which every message of every worker is
received before that worker calls `wg.Done()`. -/
def deepSched : Sched :=
  .mk [.send 0, .recvErr, .done 0, .send 1, .recvProjects, .done 1, .closeW, .ret]
    [errDrainedSched, leafSched]

/-- The tree of `deepRemote` with all listings served, except that the
subgroup listing of `org/team` fails. -/
def brokenSubgroupsRemote : Remote where
  ListGroupProjects := fun g o =>
    if o ≠ pageAt 1 then .error "no such page"
    else if g = "org" then onePage [⟨1, "org/a"⟩]
    else if g = "org/team" then onePage [⟨2, "org/team/b"⟩]
    else if g = "org/other" then onePage [⟨3, "org/other/c"⟩]
    else .error "404 Group Not Found"
  ListSubgroups := fun g =>
    if g = "org" then .ok [⟨"org/team"⟩, ⟨"org/other"⟩]
    else if g = "org/team" then .error "500 Internal Server Error"
    else .ok []

/-- A schedule for the root of `brokenSubgroupsRemote` in which the sibling
`org/other` delivers its projects. -/
def siblingSched : Sched :=
  .mk [.send 1, .recvProjects, .done 1] [leafSched, leafSched]

/-- Three projects to clone. -/
def threeProjects : List Project :=
  [⟨1, "org/a"⟩, ⟨2, "org/b"⟩, ⟨3, "org/c"⟩]

/-- The clone primitive when the destination of the second project already
exists: that attempt fails, the others succeed. -/
def secondFails : Git := fun i path _ =>
  if i = 1 then .failed "repository already exists" else .ok ⟨path⟩

/-- All three workers clone; the first and third hand over their repository;
the error of the second sits in the buffer of `errC` while that worker calls
`wg.Done()` and the waiter closes `wC`; the select takes `case <-wC`. -/
def lostErrorSched : List CAction :=
  [.acquire 0, .acquire 1, .acquire 2, .clone 0, .clone 1, .clone 2,
   .send 0, .done 0, .send 2, .done 2, .send 1, .done 1, .closeW, .ret]

/-- As `lostErrorSched`, but the select receives the error before the second
worker calls `wg.Done()`. -/
def keptErrorSched : List CAction :=
  [.acquire 0, .acquire 1, .acquire 2, .clone 0, .clone 1, .clone 2,
   .send 0, .done 0, .send 2, .done 2, .send 1, .recvErr, .done 1, .closeW, .ret]

/-- Eleven projects, one more than the gate admits. -/
def elevenProjects : List Project :=
  (List.range 11).map fun i => ⟨i, "org/p"⟩

/-- A clone primitive that always succeeds. -/
def alwaysClones : Git := fun _ path _ => .ok ⟨path⟩

/-- Ten workers acquire the gate one after the other. -/
def tenAcquires : List CAction :=
  (List.range 10).map CAction.acquire

/-- The state after `tenAcquires` on `elevenProjects`: ten workers admitted,
the eleventh still pending, ten permits held. -/
def tenAdmitted : CState :=
  { workers := (List.range 11).map fun i =>
      { project := ⟨i, "org/p"⟩
        phase := if i < 10 then .admitted else .pending
        permit := decide (i < 10) }
    sem := 10
    errC := none
    wg := 11
    wC := false
    repos := []
    errors := []
    returned := false
    panicked := false
    log := [] }

/-- A run of the commands on `deepRemote` under `deepSched`, with the default
destination directory. -/
def deepEnv : Env where
  flags := fun name =>
    if name = "gitlab_access_token" then .ok "token"
    else if name = "group" then .ok "org"
    else if name = "directory" then .ok directoryDefault
    else .error "flag accessed but not defined"
  connect := fun _ => deepRemote
  git := alwaysClones
  fuel := 3
  sched := deepSched
  cloneSched := []

/-- A run of the commands on `orgRemote` under `drainedSched`; the two
projects found are cloned one after the other. -/
def orgEnv : Env where
  flags := fun name =>
    if name = "gitlab_access_token" then .ok "token"
    else if name = "group" then .ok "org"
    else if name = "directory" then .ok directoryDefault
    else .error "flag accessed but not defined"
  connect := fun _ => orgRemote
  git := alwaysClones
  fuel := 2
  sched := drainedSched
  cloneSched := [.acquire 0, .clone 0, .send 0, .done 0, .release 0,
                 .acquire 1, .clone 1, .send 1, .done 1, .release 1, .closeW, .ret]

/-! ## Finite trees and the length of executions -/

/-- The direct listing of `group` consists of the pages `pages`, at least one,
all served: page `i` reports current page `i` of `pages.length` and, while it
is not the last one, next page `i + 1`. -/
def PageConsistent (remote : Remote) (group : String) (pages : List (List Project)) : Prop :=
  1 ≤ pages.length ∧
    ∀ i (hi : i < pages.length), ∃ np,
      remote.ListGroupProjects group (pageAt (i + 1)) =
        .ok (pages[i], { CurrentPage := ((i + 1 : Nat) : Int),
                         TotalPages := (pages.length : Int), NextPage := np }) ∧
      (i + 1 < pages.length → np = ((i + 2 : Nat) : Int))

/-- Below `group` the subgroup relation of the remote is finite, of height at
most `depth`: the listing of every group met has page-consistent pages, at
most `maxPages` of them, its subgroup listing is served, and every chain of
subgroups starting at `group` has at most `depth` members. The subgroups of a
finite tree satisfy this for the height of the tree. -/
def FiniteTree (remote : Remote) (maxPages : Nat) : Nat → String → Prop
  | 0, _ => False
  | depth + 1, group =>
    (∃ pages, PageConsistent remote group pages ∧ pages.length ≤ maxPages) ∧
      ∃ groups, remote.ListSubgroups group = .ok groups ∧
        ∀ g ∈ groups, FiniteTree remote maxPages depth g.FullPath

/-- Number of steps a subgroup worker and the select still take on its
behalf: send, receive and `wg.Done()` before the send, `wg.Done()` after it. -/
def TWorker.stepsLeft (w : TWorker) : Nat :=
  match w.phase with
  | .ready => 3
  | .sent => 1
  | .done => 0

/-- An upper bound on the number of steps left in the fan-in of
`ListGroupProjects`: those of the workers, one receive per buffered element,
the close of `wC` and the return. -/
def TState.stepsLeft (s : TState) : Nat :=
  (s.workers.map TWorker.stepsLeft).sum +
    (match s.projectsC with
      | some _ => 1
      | none => 0) +
    (match s.errC with
      | some _ => 1
      | none => 0) +
    (if s.wC then 0 else 1) + (if s.returned then 0 else 1)

/-! ## Leaving the gate, and runs of the commands -/

/-- Between `s` and `t` the worker `i`, cloning project `p`, left the gate:
it has run its deferred `sem.Release(1)`, one permit fewer is held, and no
release ran without a permit. -/
def LeftGate (s t : CState) (i : Nat) (p : Project) : Prop :=
  t.sem + 1 = s.sem ∧ t.panicked = false ∧
    ∃ w, t.workers[i]? = some w ∧ w.phase = .exited ∧ w.project = p

/-- The second worker of `threeProjects` acquires the gate, its clone fails,
it sends the error and calls `wg.Done()`. -/
def failedWorkerSched : List CAction :=
  [.acquire 1, .clone 1, .send 1, .done 1]

/-- The state after `failedWorkerSched` on `threeProjects` with `secondFails`:
the second worker is about to run its deferred release, holding the one
permit in use; its error sits in `errC`. -/
def failedWorkerDone : CState :=
  { workers := [{ project := ⟨1, "org/a"⟩, phase := .pending, permit := false },
                { project := ⟨2, "org/b"⟩, phase := .done, permit := true },
                { project := ⟨3, "org/c"⟩, phase := .pending, permit := false }]
    sem := 1
    errC := some "repository already exists"
    wg := 2
    wC := false
    repos := []
    errors := []
    returned := false
    panicked := false
    log := ["Cloning: /tmp/gctl/org/b", "repository already exists: /tmp/gctl/org/b"] }

/-- The flags the tree command defines (commands.go 108-113): the token and
the group; it has no `directory` flag. -/
def treeFlags (name : String) : Except Err String :=
  if name = "gitlab_access_token" then .ok "token"
  else if name = "group" then .ok "org"
  else .error ("flag accessed but not defined: " ++ name)

/-- A run of the tree command on `deepRemote` under `deepSched`. -/
def deepTreeEnv : Env where
  flags := treeFlags
  connect := fun _ => deepRemote
  git := alwaysClones
  fuel := 3
  sched := deepSched
  cloneSched := []

/-- A run of the tree command on `orgRemote` under `drainedSched`. -/
def orgTreeEnv : Env where
  flags := treeFlags
  connect := fun _ => orgRemote
  git := alwaysClones
  fuel := 2
  sched := drainedSched
  cloneSched := []

/-! # Theorems -/

/-! ## Pagination -/

/-- The loop walks through a run of pages that each report more pages to come
and point at their successor. -/
theorem loop_advance (remote : Remote) (group : String) :
    ∀ (rest : List (List Project)) (j : Nat) (acc : List Project)
      (reqs : List ListGroupProjectsOptions) (fuel : Nat),
      (∀ i (hi : i < rest.length), ∃ resp,
          remote.ListGroupProjects group (pageAt (j + i + 1)) = .ok (rest[i], resp) ∧
          resp.CurrentPage < resp.TotalPages ∧ resp.NextPage = ((j + i + 2 : Nat) : Int)) →
      listGroupProjectsLoop remote group (fuel + rest.length) (pageAt (j + 1)) acc reqs =
        listGroupProjectsLoop remote group fuel (pageAt (j + rest.length + 1))
          (acc ++ rest.flatten) (reqs ++ (List.range' (j + 1) rest.length).map pageAt) := by
  intro rest
  induction rest with
  | nil => intro j acc reqs fuel _; simp
  | cons p rest ih =>
    intro j acc reqs fuel h
    obtain ⟨resp, h0, hlt, hnp⟩ := h 0 (by simp)
    have hrec := ih (j + 1) (acc ++ p) (reqs ++ [pageAt (j + 1)]) fuel (by
      intro i hi
      obtain ⟨r, hr, h1, h2⟩ := h (i + 1) (by simpa using hi)
      refine ⟨r, ?_, h1, ?_⟩
      · have e : j + 1 + i + 1 = j + (i + 1) + 1 := by omega
        rw [e]; simpa using hr
      · have e : j + 1 + i + 2 = j + (i + 1) + 2 := by omega
        rw [e]; exact h2)
    have hfuel : fuel + (p :: rest).length = (fuel + rest.length) + 1 := by simp; omega
    rw [hfuel]
    simp only [listGroupProjectsLoop]
    simp only [Nat.add_zero] at h0
    rw [h0]
    simp only [ge_iff_le, not_le.mpr hlt, if_false]
    have hpage : ({ pageAt (j + 1) with
        ListOptions := { (pageAt (j + 1)).ListOptions with Page := resp.NextPage } } :
        ListGroupProjectsOptions) = pageAt (j + 1 + 1) := by
      rw [hnp]; rfl
    rw [hpage]
    simp only [List.getElem_cons_zero]
    rw [hrec]
    have e1 : j + 1 + rest.length + 1 = j + (p :: rest).length + 1 := by simp; omega
    rw [e1]
    simp [List.range'_succ, List.append_assoc]

/-- The last iteration: a served page that reports no further page ends the
loop with a nil error. -/
theorem loop_last (remote : Remote) (group : String) (k : Nat) (ps : List Project)
    (resp : Response) (acc : List Project) (reqs : List ListGroupProjectsOptions) (fuel : Nat)
    (h : remote.ListGroupProjects group (pageAt k) = .ok (ps, resp))
    (hge : resp.CurrentPage ≥ resp.TotalPages) :
    listGroupProjectsLoop remote group (fuel + 1) (pageAt k) acc reqs =
      some (acc ++ ps, none, reqs ++ [pageAt k]) := by
  simp only [listGroupProjectsLoop, h, hge, if_true]

/-- An iteration whose fetch fails returns the accumulator and the error. -/
theorem loop_error (remote : Remote) (group : String) (k : Nat) (err : Err)
    (acc : List Project) (reqs : List ListGroupProjectsOptions) (fuel : Nat)
    (h : remote.ListGroupProjects group (pageAt k) = .error err) :
    listGroupProjectsLoop remote group (fuel + 1) (pageAt k) acc reqs =
      some (acc, some err, reqs ++ [pageAt k]) := by
  simp only [listGroupProjectsLoop, h]


/-! ## Counting workers -/

theorem sum_map_set {α : Type} (f : α → Nat) :
    ∀ (l : List α) (i : Nat) (a b : α), l[i]? = some a →
      ((l.set i b).map f).sum + f a = (l.map f).sum + f b := by
  intro l
  induction l with
  | nil => intro i a b h; simp at h
  | cons x xs ih =>
    intro i a b h
    cases i with
    | zero =>
      simp only [List.getElem?_cons_zero, Option.some.injEq] at h
      subst h
      simp only [List.set_cons_zero, List.map_cons, List.sum_cons]
      omega
    | succ n =>
      simp only [List.getElem?_cons_succ] at h
      have := ih n a b h
      simp only [List.set_cons_succ, List.map_cons, List.sum_cons]
      omega

theorem le_sum_map {α : Type} (f : α → Nat) :
    ∀ (l : List α) (i : Nat) (a : α), l[i]? = some a → f a ≤ (l.map f).sum := by
  intro l
  induction l with
  | nil => intro i a h; simp at h
  | cons x xs ih =>
    intro i a h
    cases i with
    | zero =>
      simp only [List.getElem?_cons_zero, Option.some.injEq] at h
      subst h
      simp
    | succ n =>
      simp only [List.getElem?_cons_succ] at h
      have := ih n a h
      simp only [List.map_cons, List.sum_cons]
      omega

theorem inGateCount_start (projects : List Project) :
    inGateCount (CState.start projects).workers = 0 := by
  simp only [CState.start, inGateCount]
  induction projects with
  | nil => rfl
  | cons p ps ih => simpa [CWorker.inGate] using ih

theorem beforeDoneCount_start (projects : List Project) :
    beforeDoneCount (CState.start projects).workers = projects.length := by
  simp only [CState.start, beforeDoneCount]
  induction projects with
  | nil => rfl
  | cons p ps ih =>
    simp only [List.map_cons, List.sum_cons, List.length_cons, CWorker.beforeDone, if_true] at ih ⊢
    omega

theorem cinv_start (projects : List Project) : CInv (CState.start projects) := by
  refine ⟨(inGateCount_start projects).symm, by simp [CState.start], rfl, ?_,
    (beforeDoneCount_start projects).symm, ?_, ?_⟩
  · intro w hw hin
    simp only [CState.start, List.mem_map] at hw
    obtain ⟨p, -, rfl⟩ := hw
    simp [CWorker.inGate] at hin
  · intro h; simp [CState.start] at h
  · intro h; simp [CState.start] at h

theorem inGateCount_set (ws : List CWorker) (i : Nat) (w v : CWorker) (h : ws[i]? = some w) :
    inGateCount (ws.set i v) + (if w.inGate then 1 else 0) =
      inGateCount ws + (if v.inGate then 1 else 0) :=
  sum_map_set (fun w => if w.inGate then 1 else 0) ws i w v h

theorem beforeDoneCount_set (ws : List CWorker) (i : Nat) (w v : CWorker) (h : ws[i]? = some w) :
    beforeDoneCount (ws.set i v) + (if w.beforeDone then 1 else 0) =
      beforeDoneCount ws + (if v.beforeDone then 1 else 0) :=
  sum_map_set (fun w => if w.beforeDone then 1 else 0) ws i w v h

theorem beforeDoneCount_pos (ws : List CWorker) (i : Nat) (w : CWorker) (h : ws[i]? = some w)
    (hb : w.beforeDone = true) : 1 ≤ beforeDoneCount ws := by
  have := le_sum_map (fun w => if w.beforeDone then 1 else 0) ws i w h
  simpa [hb, beforeDoneCount] using this

theorem inGateCount_pos (ws : List CWorker) (i : Nat) (w : CWorker) (h : ws[i]? = some w)
    (hb : w.inGate = true) : 1 ≤ inGateCount ws := by
  have := le_sum_map (fun w => if w.inGate then 1 else 0) ws i w h
  simpa [hb, inGateCount] using this

theorem permit_set (ws : List CWorker) (i : Nat) (v : CWorker)
    (h : ∀ w ∈ ws, w.inGate = true → w.permit = true)
    (hv : v.inGate = true → v.permit = true) :
    ∀ w ∈ ws.set i v, w.inGate = true → w.permit = true := by
  intro w hw
  rcases List.mem_or_eq_of_mem_set hw with hmem | rfl
  · exact h w hmem
  · exact hv

/-- Every enabled step of `Clone` keeps the reachable-state facts. -/
theorem cinv_step (git : Git) (directory accessToken : String) (s t : CState) (a : CAction)
    (hinv : CInv s) (hstep : s.step git directory accessToken a = some t) : CInv t := by
  obtain ⟨h1, h2, h3, h4, h5, h6, h7⟩ := hinv
  cases a with
  | acquire i =>
    simp only [CState.step] at hstep
    split at hstep
    · cases hstep
    · rename_i w hw
      split at hstep
      · rename_i hp
        split at hstep
        · rename_i hlt
          cases hstep
          have hg := inGateCount_set s.workers i w { w with phase := .admitted, permit := true } hw
          have hb := beforeDoneCount_set s.workers i w { w with phase := .admitted, permit := true } hw
          simp only [CWorker.inGate, CWorker.beforeDone, hp, if_true] at hg hb
          refine ⟨?_, ?_, h3, ?_, ?_, ?_, h7⟩
          · simp only [CState.setWorker]; simp at hg; omega
          · simp only [CState.setWorker]; omega
          · exact permit_set _ _ _ h4 (fun _ => rfl)
          · simp only [CState.setWorker]; omega
          · simpa [CState.setWorker] using h6
        · cases hstep
      · cases hstep
  | acquireCancelled i =>
    simp only [CState.step] at hstep
    split at hstep
    · cases hstep
    · rename_i w hw
      split at hstep
      · rename_i hp hr
        have hpos := beforeDoneCount_pos s.workers i w hw (by simp [CWorker.beforeDone, hp])
        have := h6 (h7 hr)
        omega
      · cases hstep
  | clone i =>
    simp only [CState.step] at hstep
    split at hstep
    · cases hstep
    · rename_i w hw
      split at hstep
      · rename_i hp
        cases hstep
        have hg := inGateCount_set s.workers i w
          { w with phase := .cloned (git i (clonePath directory w.project)
              (cloneOptions accessToken w.project)) } hw
        have hb := beforeDoneCount_set s.workers i w
          { w with phase := .cloned (git i (clonePath directory w.project)
              (cloneOptions accessToken w.project)) } hw
        simp only [CWorker.inGate, CWorker.beforeDone, hp, if_true] at hg hb
        have hperm : w.permit = true :=
          h4 w (List.mem_iff_getElem?.mpr ⟨i, hw⟩) (by simp [CWorker.inGate, hp])
        refine ⟨?_, h2, h3, ?_, ?_, ?_, h7⟩
        · simp only [CState.setWorker]; omega
        · exact permit_set _ _ _ h4 (fun _ => hperm)
        · simp only [CState.setWorker]; omega
        · simpa [CState.setWorker] using h6
      · cases hstep
  | send i =>
    simp only [CState.step] at hstep
    split at hstep
    · cases hstep
    · rename_i w hw
      split at hstep
      · rename_i r hp
        split at hstep
        · cases hstep
        · rename_i hr
          cases hstep
          have hg := inGateCount_set s.workers i w { w with phase := .sent } hw
          have hb := beforeDoneCount_set s.workers i w { w with phase := .sent } hw
          simp only [CWorker.inGate, CWorker.beforeDone, hp, if_true] at hg hb
          have hperm : w.permit = true :=
            h4 w (List.mem_iff_getElem?.mpr ⟨i, hw⟩) (by simp [CWorker.inGate, hp])
          refine ⟨?_, h2, h3, ?_, ?_, ?_, ?_⟩
          · simp only [CState.setWorker]; omega
          · exact permit_set _ _ _ h4 (fun _ => hperm)
          · simp only [CState.setWorker]; omega
          · simpa [CState.setWorker] using h6
          · simpa [CState.setWorker] using h7
      · rename_i err hp
        split at hstep
        · cases hstep
          have hg := inGateCount_set s.workers i w { w with phase := .sent } hw
          have hb := beforeDoneCount_set s.workers i w { w with phase := .sent } hw
          simp only [CWorker.inGate, CWorker.beforeDone, hp, if_true] at hg hb
          have hperm : w.permit = true :=
            h4 w (List.mem_iff_getElem?.mpr ⟨i, hw⟩) (by simp [CWorker.inGate, hp])
          refine ⟨?_, h2, h3, ?_, ?_, ?_, ?_⟩
          · simp only [CState.setWorker]; omega
          · exact permit_set _ _ _ h4 (fun _ => hperm)
          · simp only [CState.setWorker]; omega
          · simpa [CState.setWorker] using h6
          · simpa [CState.setWorker] using h7
        · cases hstep
      · cases hstep
  | done i =>
    simp only [CState.step] at hstep
    split at hstep
    · cases hstep
    · rename_i w hw
      split at hstep
      · rename_i hp
        cases hstep
        have hg := inGateCount_set s.workers i w { w with phase := .done } hw
        have hb := beforeDoneCount_set s.workers i w { w with phase := .done } hw
        simp only [CWorker.inGate, CWorker.beforeDone, hp, if_true] at hg hb
        have hperm : w.permit = true :=
          h4 w (List.mem_iff_getElem?.mpr ⟨i, hw⟩) (by simp [CWorker.inGate, hp])
        refine ⟨?_, h2, h3, ?_, ?_, ?_, ?_⟩
        · simp only [CState.setWorker]; omega
        · exact permit_set _ _ _ h4 (fun _ => hperm)
        · simp only [CState.setWorker]; simp at hb; omega
        · intro hc
          have := h6 (by simpa [CState.setWorker] using hc)
          simp only [CState.setWorker]; omega
        · simpa [CState.setWorker] using h7
      · cases hstep
  | release i =>
    simp only [CState.step] at hstep
    split at hstep
    · cases hstep
    · rename_i w hw
      split at hstep
      · rename_i hp
        have hpos := inGateCount_pos s.workers i w hw (by simp [CWorker.inGate, hp])
        split at hstep
        · rename_i h0
          omega
        · cases hstep
          have hg := inGateCount_set s.workers i w { w with phase := .exited } hw
          have hb := beforeDoneCount_set s.workers i w { w with phase := .exited } hw
          simp only [CWorker.inGate, CWorker.beforeDone, hp, if_true] at hg hb
          refine ⟨?_, ?_, h3, ?_, ?_, ?_, ?_⟩
          · simp only [CState.setWorker]; simp at hg; omega
          · simp only [CState.setWorker]; omega
          · exact permit_set _ _ _ h4 (fun hin => by simp [CWorker.inGate] at hin)
          · simp only [CState.setWorker]; simp at hb; omega
          · simpa [CState.setWorker] using h6
          · simpa [CState.setWorker] using h7
      · cases hstep
  | closeW =>
    simp only [CState.step] at hstep
    split at hstep
    · rename_i hwg hwc
      cases hstep
      exact ⟨h1, h2, h3, h4, h5, fun _ => hwg, fun hr => by simp⟩
    · cases hstep
  | recvErr =>
    simp only [CState.step] at hstep
    split at hstep
    · cases hstep
      exact ⟨h1, h2, h3, h4, h5, h6, h7⟩
    · cases hstep
  | ret =>
    simp only [CState.step] at hstep
    split at hstep
    · rename_i hr hwc
      cases hstep
      exact ⟨h1, h2, h3, h4, h5, h6, fun _ => hwc⟩
    · cases hstep

/-- Every state `Clone` reaches keeps the reachable-state facts. -/
theorem cinv_run (git : Git) (directory accessToken : String) :
    ∀ (acts : List CAction) (s t : CState), CInv s →
      s.run git directory accessToken acts = some t → CInv t := by
  intro acts
  induction acts with
  | nil =>
    intro s t hinv h
    simp only [CState.run, Option.some.injEq] at h
    exact h ▸ hinv
  | cons a as ih =>
    intro s t hinv h
    simp only [CState.run] at h
    split at h
    · cases h
    · rename_i u hu
      exact ih u t (cinv_step git directory accessToken s u a hinv hu) h

theorem inFlightCount_le_inGateCount : ∀ ws : List CWorker, inFlightCount ws ≤ inGateCount ws := by
  intro ws
  induction ws with
  | nil => simp [inFlightCount, inGateCount]
  | cons w ws ih =>
    simp only [inFlightCount, inGateCount, List.map_cons, List.sum_cons] at ih ⊢
    have : (if w.phase = .admitted then 1 else 0) ≤ (if w.inGate = true then 1 else 0) := by
      by_cases hp : w.phase = .admitted
      · simp [hp, CWorker.inGate]
      · simp [hp]
    omega


/-! ## The fan-in of the traversal -/

theorem pendingOk_set (ws : List TWorker) :
    ∀ (i : Nat) (w v : TWorker), ws[i]? = some w →
      List.Perm (v.pendingOk ++ pendingOk ws) (w.pendingOk ++ pendingOk (ws.set i v)) := by
  induction ws with
  | nil => intro i w v h; simp at h
  | cons x xs ih =>
    intro i w v h
    cases i with
    | zero =>
      simp only [List.getElem?_cons_zero, Option.some.injEq] at h
      subst h
      rw [List.perm_iff_count]
      intro a
      simp only [pendingOk, List.set_cons_zero, List.map_cons, List.flatten_cons,
        List.count_append]
      omega
    | succ n =>
      simp only [List.getElem?_cons_succ] at h
      have hc := ih n w v h
      rw [List.perm_iff_count] at hc ⊢
      intro a
      have := hc a
      simp only [pendingOk, List.set_cons_succ, List.map_cons, List.flatten_cons,
        List.count_append] at this ⊢
      omega

theorem notDoneCount_set (ws : List TWorker) (i : Nat) (w v : TWorker) (h : ws[i]? = some w) :
    notDoneCount (ws.set i v) + (if w.phase = .done then 0 else 1) =
      notDoneCount ws + (if v.phase = .done then 0 else 1) :=
  sum_map_set (fun x : TWorker => if x.phase = .done then 0 else 1) ws i w v h

theorem pendingOk_of_all_done : ∀ ws : List TWorker, notDoneCount ws = 0 → pendingOk ws = [] := by
  intro ws
  induction ws with
  | nil => intro _; rfl
  | cons x xs ih =>
    intro h
    simp only [notDoneCount, List.map_cons, List.sum_cons] at h
    have hx : x.phase = .done := by
      by_contra hne
      simp [hne] at h
    have hxs : notDoneCount xs = 0 := by
      simp only [notDoneCount]; omega
    simp only [pendingOk, List.map_cons, List.flatten_cons]
    have : x.pendingOk = [] := by simp [TWorker.pendingOk, hx]
    rw [this]
    simpa [pendingOk] using ih hxs

theorem pendingOk_start {direct : List Project} (results : List (List Project × Option Err)) :
    pendingOk (TState.start direct results).workers = okProjects results := by
  simp only [TState.start, pendingOk, okProjects, List.map_map]
  congr 1
  apply List.map_congr_left
  intro r _
  simp only [Function.comp, TWorker.pendingOk]
  cases r.2 <;> rfl

theorem notDoneCount_start {direct : List Project} (results : List (List Project × Option Err)) :
    notDoneCount (TState.start direct results).workers = results.length := by
  simp only [TState.start, notDoneCount]
  induction results with
  | nil => rfl
  | cons r rs ih =>
    simp only [List.map_cons, List.sum_cons, List.length_cons] at ih ⊢
    simp at ih ⊢
    omega

theorem tinv_start (direct : List Project) (results : List (List Project × Option Err)) :
    TInv direct results (TState.start direct results) := by
  refine ⟨?_, ⟨[], by simp [TState.start]⟩, (notDoneCount_start results).symm, ?_, ?_⟩
  · rw [pendingOk_start]
    simp [TState.start]
  · intro h; simp [TState.start] at h
  · intro h; simp [TState.start] at h

/-- Every enabled step of the fan-in keeps the reachable-state facts. -/
theorem tinv_step (direct : List Project) (results : List (List Project × Option Err))
    (s t : TState) (a : TAction) (hinv : TInv direct results s) (hstep : s.step a = some t) :
    TInv direct results t := by
  obtain ⟨h1, h2, h3, h4, h5⟩ := hinv
  cases a with
  | send i =>
    simp only [TState.step] at hstep
    split at hstep
    · cases hstep
    · rename_i w hw
      split at hstep
      · rename_i e hp he
        split at hstep
        · cases hstep
          have hs := pendingOk_set s.workers i w { w with phase := .sent } hw
          have hn := notDoneCount_set s.workers i w { w with phase := .sent } hw
          have hv : ({ w with phase := .sent } : TWorker).pendingOk = [] := by
            simp [TWorker.pendingOk]
          have hwp : w.pendingOk = [] := by simp [TWorker.pendingOk, hp, he]
          rw [hv, hwp, List.nil_append, List.nil_append] at hs
          simp only [hp] at hn
          refine ⟨?_, h2, ?_, h4, h5⟩
          · exact (List.Perm.append_left _ hs.symm).trans h1
          · simp at hn; simp only []; omega
        · cases hstep
      · rename_i hp he
        split at hstep
        · rename_i hc
          cases hstep
          have hs := pendingOk_set s.workers i w { w with phase := .sent } hw
          have hn := notDoneCount_set s.workers i w { w with phase := .sent } hw
          have hv : ({ w with phase := .sent } : TWorker).pendingOk = [] := by
            simp [TWorker.pendingOk]
          have hwp : w.pendingOk = w.ps := by simp [TWorker.pendingOk, hp, he]
          rw [hv, hwp, List.nil_append] at hs
          simp only [hp] at hn
          refine ⟨?_, h2, ?_, h4, h5⟩
          · simp only [hc, Option.getD_none, List.append_nil, Option.getD_some] at h1 ⊢
            rw [List.append_assoc]
            exact (List.Perm.append_left _ hs.symm).trans h1
          · simp at hn; simp only []; omega
        · cases hstep
      · cases hstep
  | done i =>
    simp only [TState.step] at hstep
    split at hstep
    · cases hstep
    · rename_i w hw
      split at hstep
      · rename_i hp
        cases hstep
        have hs := pendingOk_set s.workers i w { w with phase := .done } hw
        have hn := notDoneCount_set s.workers i w { w with phase := .done } hw
        have hv : ({ w with phase := .done } : TWorker).pendingOk = [] := by
          simp [TWorker.pendingOk]
        have hwp : w.pendingOk = [] := by simp [TWorker.pendingOk, hp]
        rw [hv, hwp, List.nil_append, List.nil_append] at hs
        simp only [hp] at hn
        refine ⟨?_, h2, ?_, ?_, h5⟩
        · exact (List.Perm.append_left _ hs.symm).trans h1
        · simp at hn; simp only []; omega
        · intro hc
          have := h4 hc
          simp only []; omega
      · cases hstep
  | closeW =>
    simp only [TState.step] at hstep
    split at hstep
    · rename_i hwg hwc
      cases hstep
      exact ⟨h1, h2, h3, fun _ => hwg, fun hr => by simp⟩
    · cases hstep
  | recvProjects =>
    simp only [TState.step] at hstep
    split at hstep
    · rename_i ps hr hc
      cases hstep
      refine ⟨?_, ?_, h3, h4, h5⟩
      · simpa [hc, List.append_assoc] using h1
      · obtain ⟨more, hm⟩ := h2
        exact ⟨more ++ ps, by simp [hm, List.append_assoc]⟩
    · cases hstep
  | recvErr =>
    simp only [TState.step] at hstep
    split at hstep
    · cases hstep
      exact ⟨h1, h2, h3, h4, h5⟩
    · cases hstep
  | ret =>
    simp only [TState.step] at hstep
    split at hstep
    · rename_i hr hwc
      cases hstep
      exact ⟨h1, h2, h3, h4, fun _ => hwc⟩
    · cases hstep

/-- Every state the fan-in reaches keeps the reachable-state facts. -/
theorem tinv_run (direct : List Project) (results : List (List Project × Option Err)) :
    ∀ (acts : List TAction) (s t : TState), TInv direct results s →
      s.run acts = some t → TInv direct results t := by
  intro acts
  induction acts with
  | nil =>
    intro s t hinv h
    simp only [TState.run, Option.some.injEq] at h
    exact h ▸ hinv
  | cons a as ih =>
    intro s t hinv h
    simp only [TState.run] at h
    split at h
    · cases h
    · rename_i u hu
      exact ih u t (tinv_step direct results s u a hinv hu) h

/-- At the return of the fan-in nothing is left to send: the returned list
together with what is still buffered in `projectsC` is the direct listing
plus everything the nil-error workers returned. -/
theorem tinv_at_return (direct : List Project) (results : List (List Project × Option Err))
    (s : TState) (hinv : TInv direct results s) (hret : s.returned = true) :
    List.Perm (s.projects ++ s.projectsC.getD []) (direct ++ okProjects results) := by
  have h0 : notDoneCount s.workers = 0 := by
    have := hinv.signal (hinv.leaving hret)
    have := hinv.waiting
    omega
  have := hinv.merged
  rw [pendingOk_of_all_done _ h0, List.append_nil] at this
  exact this

theorem childResults_length : ∀ (outs : List Outcome) (results : List (List Project × Option Err)),
    childResults outs = some results → results.length = outs.length := by
  intro outs
  induction outs with
  | nil => intro results h; simp only [childResults, Option.some.injEq] at h; subst h; rfl
  | cons o os ih =>
    intro results h
    cases o with
    | returned ps err =>
      simp only [childResults, Option.map_eq_some'] at h
      obtain ⟨rs, hrs, rfl⟩ := h
      simp [ih rs hrs]
    | fatal m => simp [childResults] at h
    | stuck => simp [childResults] at h

theorem firstFatal_of_fatal : ∀ (outs : List Outcome) (i : Nat) (m : Err),
    outs[i]? = some (.fatal m) → ∃ m', firstFatal outs = some m' := by
  intro outs
  induction outs with
  | nil => intro i m h; simp at h
  | cons o os ih =>
    intro i m h
    cases o with
    | fatal m0 => exact ⟨m0, rfl⟩
    | returned ps err =>
      cases i with
      | zero => simp at h
      | succ n =>
        simp only [List.getElem?_cons_succ] at h
        obtain ⟨m', hm⟩ := ih n m h
        exact ⟨m', by simp [firstFatal, hm]⟩
    | stuck =>
      cases i with
      | zero => simp at h
      | succ n =>
        simp only [List.getElem?_cons_succ] at h
        obtain ⟨m', hm⟩ := ih n m h
        exact ⟨m', by simp [firstFatal, hm]⟩


theorem getElem?_after {α : Type} (pre : List α) (w : α) (tl : List α) :
    (pre ++ w :: tl)[pre.length]? = some w := by
  induction pre with
  | nil => simp
  | cons x xs ih => simpa using ih

theorem set_after {α : Type} (pre : List α) (w v : α) (tl : List α) :
    (pre ++ w :: tl).set pre.length v = pre ++ v :: tl := by
  induction pre with
  | nil => simp
  | cons x xs ih => simp [ih]

theorem run_append (s : TState) (xs ys : List TAction) :
    s.run (xs ++ ys) = (s.run xs).bind fun t => t.run ys := by
  induction xs generalizing s with
  | nil => rfl
  | cons a as ih =>
    simp only [List.cons_append, TState.run]
    cases s.step a with
    | none => rfl
    | some t => exact ih t

/-- The rounds of `drainSchedule` take every worker to its end, with every
message received. -/
theorem run_drainRounds :
    ∀ (rest : List (List Project × Option Err)) (pre : List TWorker) (acc : List Project)
      (e : Option Err),
      TState.run { workers := pre ++ rest.map (TWorker.of .ready), projectsC := none,
                   errC := none, wg := rest.length, wC := false, projects := acc, err := e,
                   returned := false }
          (drainRounds pre.length rest) =
        some { workers := pre ++ rest.map (TWorker.of .done), projectsC := none, errC := none,
               wg := 0, wC := false, projects := acc ++ okProjects rest, err := lastErr rest e,
               returned := false } := by
  intro rest
  induction rest with
  | nil => intro pre acc e; simp [drainRounds, TState.run, okProjects, lastErr]
  | cons r rs ih =>
    intro pre acc e
    have hih := ih (pre ++ [TWorker.of .done r])
    simp only [List.length_append, List.length_singleton, List.append_assoc,
      List.singleton_append] at hih
    obtain ⟨ps, er⟩ := r
    cases er with
    | none =>
      simp only [drainRounds, recvFor, List.map_cons, TState.run, TState.step, getElem?_after,
        set_after, TWorker.of, List.length_cons, Nat.add_sub_cancel]
      simp only [TWorker.of] at hih
      rw [hih]
      simp [okProjects, lastErr]
    | some x =>
      simp only [drainRounds, recvFor, List.map_cons, TState.run, TState.step, getElem?_after,
        set_after, TWorker.of, List.length_cons, Nat.add_sub_cancel]
      simp only [TWorker.of] at hih
      rw [hih]
      simp [okProjects, lastErr]

/-- Under `drainSchedule` the fan-in returns the direct listing followed by
the lists of all nil-error workers, with the last error of the workers. -/
theorem fanIn_drainSchedule (direct : List Project)
    (results : List (List Project × Option Err)) :
    fanIn direct results (drainSchedule results) =
      some (direct ++ okProjects results, lastErr results none) := by
  have h := run_drainRounds results [] direct none
  simp only [List.nil_append, List.length_nil] at h
  have hstart : TState.start direct results =
      { workers := results.map (TWorker.of .ready), projectsC := none, errC := none,
        wg := results.length, wC := false, projects := direct, err := none,
        returned := false } := rfl
  simp only [fanIn, drainSchedule, run_append, hstart, h, Option.bind, TState.run,
    TState.step]
  rfl

/-! ## Leaving the gate -/

theorem index_lt {α : Type} (l : List α) (i : Nat) (a : α) (h : l[i]? = some a) :
    i < l.length := by
  rcases Nat.lt_or_ge i l.length with hlt | hge
  · exact hlt
  · rw [List.getElem?_eq_none hge] at h
    cases h

theorem getElem?_setWorker (s : CState) (i : Nat) (w v : CWorker)
    (h : s.workers[i]? = some w) : (s.setWorker i v).workers[i]? = some v := by
  have hi := index_lt _ _ _ h
  simp [CState.setWorker, List.getElem?_set, hi]

/-- While a worker has not called `wg.Done()`, `Clone` has not returned. -/
theorem not_returned_of_beforeDone (s : CState) (hinv : CInv s) (i : Nat) (w : CWorker)
    (hw : s.workers[i]? = some w) (hb : w.beforeDone = true) : s.returned = false := by
  have hpos := beforeDoneCount_pos s.workers i w hw hb
  have hwg := hinv.counter
  cases hr : s.returned with
  | false => rfl
  | true =>
    have := hinv.closing (hinv.returning hr)
    omega

/-- Taking one more step first, one that leaves the permits alone. -/
theorem leftGate_after_step (git : Git) (directory accessToken : String) (s u : CState)
    (a : CAction) (i : Nat) (p : Project)
    (hstep : s.step git directory accessToken a = some u) (hsem : u.sem = s.sem)
    (h : ∃ acts t, u.run git directory accessToken acts = some t ∧ LeftGate u t i p) :
    ∃ acts t, s.run git directory accessToken acts = some t ∧ LeftGate s t i p := by
  obtain ⟨acts, t, hrun, hleft⟩ := h
  refine ⟨a :: acts, t, ?_, ?_⟩
  · simp only [CState.run, hstep]
    exact hrun
  · simpa only [LeftGate, hsem] using hleft

/-- A worker that has called `wg.Done()` can run its deferred release, and
the release gives back exactly one permit. -/
theorem release_enabled (git : Git) (directory accessToken : String) (s : CState)
    (hinv : CInv s) (i : Nat) (w : CWorker)
    (hw : s.workers[i]? = some w) (hp : w.phase = .done) :
    ∃ t, s.step git directory accessToken (.release i) = some t ∧ t.sem + 1 = s.sem ∧
      t.panicked = false ∧ t.workers[i]? = some { w with phase := .exited } := by
  have hpos := inGateCount_pos s.workers i w hw (by simp [CWorker.inGate, hp])
  have hheld := hinv.held
  have hne : s.sem ≠ 0 := by omega
  simp only [CState.step, hw, hp, hne, if_false]
  refine ⟨_, rfl, ?_, hinv.sound, getElem?_setWorker s i w _ hw⟩
  show s.sem - 1 + 1 = s.sem
  omega

theorem leftGate_from_done (git : Git) (directory accessToken : String) (s : CState)
    (hinv : CInv s) (i : Nat) (w : CWorker)
    (hw : s.workers[i]? = some w) (hp : w.phase = .done) :
    ∃ acts t, s.run git directory accessToken acts = some t ∧ LeftGate s t i w.project := by
  obtain ⟨t, hstep, hsem, hpan, hwt⟩ := release_enabled git directory accessToken s hinv i w hw hp
  refine ⟨[.release i], t, ?_, hsem, hpan, _, hwt, rfl, rfl⟩
  simp only [CState.run, hstep]

theorem leftGate_from_sent (git : Git) (directory accessToken : String) (s : CState)
    (hinv : CInv s) (i : Nat) (w : CWorker)
    (hw : s.workers[i]? = some w) (hp : w.phase = .sent) :
    ∃ acts t, s.run git directory accessToken acts = some t ∧ LeftGate s t i w.project := by
  have hstep : s.step git directory accessToken (.done i) =
      some { s.setWorker i { w with phase := .done } with wg := s.wg - 1 } := by
    simp only [CState.step, hw, hp]
  have hinv2 := cinv_step git directory accessToken s _ (.done i) hinv hstep
  exact leftGate_after_step git directory accessToken s _ (.done i) i w.project hstep rfl
    (leftGate_from_done git directory accessToken _ hinv2 i { w with phase := .done }
      (getElem?_setWorker s i w _ hw) rfl)

theorem leftGate_from_cloned (git : Git) (directory accessToken : String) (s : CState)
    (hinv : CInv s) (i : Nat) (w : CWorker) (res : Cloned)
    (hw : s.workers[i]? = some w) (hp : w.phase = .cloned res) :
    ∃ acts t, s.run git directory accessToken acts = some t ∧ LeftGate s t i w.project := by
  have hnr := not_returned_of_beforeDone s hinv i w hw (by simp [CWorker.beforeDone, hp])
  cases res with
  | ok r =>
    have hstep : s.step git directory accessToken (.send i) =
        some { s.setWorker i { w with phase := .sent } with repos := s.repos ++ [r] } := by
      simp [CState.step, hw, hp, hnr]
    have hinv2 := cinv_step git directory accessToken s _ (.send i) hinv hstep
    exact leftGate_after_step git directory accessToken s _ (.send i) i w.project hstep rfl
      (leftGate_from_sent git directory accessToken _ hinv2 i { w with phase := .sent }
        (getElem?_setWorker s i w _ hw) rfl)
  | failed err =>
    have hsend : ∀ u : CState, CInv u → u.workers[i]? = some w → u.errC = none →
        ∃ acts t, u.run git directory accessToken acts = some t ∧
          LeftGate u t i w.project := by
      intro u hu hwu hc
      have hstep : u.step git directory accessToken (.send i) =
          some { u.setWorker i { w with phase := .sent } with
                 errC := some err
                 log := u.log ++ [err ++ ": " ++ clonePath directory w.project] } := by
        simp only [CState.step, hwu, hp, hc]
      have hinv2 := cinv_step git directory accessToken u _ (.send i) hu hstep
      exact leftGate_after_step git directory accessToken u _ (.send i) i w.project hstep rfl
        (leftGate_from_sent git directory accessToken _ hinv2 i { w with phase := .sent }
          (getElem?_setWorker u i w _ hwu) rfl)
    cases hc : s.errC with
    | none => exact hsend s hinv hw hc
    | some e =>
      have hstep : s.step git directory accessToken .recvErr =
          some { s with errors := s.errors ++ [e], errC := none } := by
        simp only [CState.step, hnr, hc]
      have hinv2 := cinv_step git directory accessToken s _ .recvErr hinv hstep
      exact leftGate_after_step git directory accessToken s _ .recvErr i w.project hstep rfl
        (hsend _ hinv2 hw rfl)

/-- Every worker inside the gate gets out of it, whatever its clone returns:
from every reachable state some continuation takes the worker through its
send, its `wg.Done()` and its deferred release. -/
theorem leftGate_from_inGate (git : Git) (directory accessToken : String) (s : CState)
    (hinv : CInv s) (i : Nat) (w : CWorker)
    (hw : s.workers[i]? = some w) (hin : w.inGate = true) :
    ∃ acts t, s.run git directory accessToken acts = some t ∧ LeftGate s t i w.project := by
  cases hp : w.phase with
  | pending => simp [CWorker.inGate, hp] at hin
  | exited => simp [CWorker.inGate, hp] at hin
  | done => exact leftGate_from_done git directory accessToken s hinv i w hw hp
  | sent => exact leftGate_from_sent git directory accessToken s hinv i w hw hp
  | cloned res => exact leftGate_from_cloned git directory accessToken s hinv i w res hw hp
  | admitted =>
    have hstep : s.step git directory accessToken (.clone i) =
        some { s.setWorker i
                { w with phase := .cloned (git i (clonePath directory w.project)
                    (cloneOptions accessToken w.project)) } with
               log := s.log ++ ["Cloning: " ++ clonePath directory w.project] } := by
      simp only [CState.step, hw, hp]
    have hinv2 := cinv_step git directory accessToken s _ (.clone i) hinv hstep
    exact leftGate_after_step git directory accessToken s _ (.clone i) i w.project hstep rfl
      (leftGate_from_cloned git directory accessToken _ hinv2 i
        { w with phase := .cloned (git i (clonePath directory w.project)
            (cloneOptions accessToken w.project)) } _
        (getElem?_setWorker s i w _ hw) rfl)

/-- In a reachable state `sem.Acquire` cannot fail: the context is cancelled
only at the return, when no worker is still pending. -/
theorem acquire_never_cancelled (git : Git) (directory accessToken : String) (s : CState)
    (hinv : CInv s) (i : Nat) :
    s.step git directory accessToken (.acquireCancelled i) = none := by
  simp only [CState.step]
  split
  · rfl
  · rename_i w hw
    split
    · rename_i hp hr
      have := not_returned_of_beforeDone s hinv i w hw (by simp [CWorker.beforeDone, hp])
      rw [this] at hr
      cases hr
    · rfl

/-- A pending worker is admitted whenever fewer than `semSize` permits are
held, and its admission takes exactly one permit. -/
theorem acquire_enabled (git : Git) (directory accessToken : String) (s : CState)
    (i : Nat) (w : CWorker) (hw : s.workers[i]? = some w) (hp : w.phase = .pending)
    (hlt : s.sem < 10) :
    ∃ t, s.step git directory accessToken (.acquire i) = some t ∧ t.sem = s.sem + 1 ∧
      t.workers[i]? = some { w with phase := .admitted, permit := true } := by
  have hlt2 : s.sem < semSize := hlt
  simp only [CState.step, hw, hp, hlt2, if_true]
  exact ⟨_, rfl, rfl, getElem?_setWorker s i w _ hw⟩

/-! ## The claims -/

/-- C1. In scenario A the project of the subgroup is lost under a legal
schedule: the worker puts its result into the one-slot buffer of `projectsC`,
calls `wg.Done()`, the waiter closes `wC`, and the select takes `case <-wC`.
The call returns `org/a` alone with a nil error. When the select receives the
buffered result first, both projects are returned. -/
theorem scenarioA_buffered_projects_lost :
    ListGroupProjects orgRemote 2 "org" racedSched = .returned [⟨1, "org/a"⟩] none ∧
      ListGroupProjects orgRemote 2 "org" drainedSched =
        .returned [⟨1, "org/a"⟩, ⟨2, "org/team/b"⟩] none := by
  decide

/-- C2 as stated fails. In `deepRemote` only the listing of the grandchild
`org/team/sub` fails. With every message received before the completion
signal, the root returns `org/a` and `org/other/c` with the error; the project
`org/team/b` of the grandchild's parent is absent although the parent's own
listing succeeded. -/
theorem failing_grandchild_drops_parent_projects :
    ListGroupProjects deepRemote 3 "org" deepSched =
        .returned [⟨1, "org/a"⟩, ⟨3, "org/other/c"⟩] (some "403 Forbidden") ∧
      listGroupProjects deepRemote 3 "org/team" = some ([⟨2, "org/team/b"⟩], none) ∧
      (⟨2, "org/team/b"⟩ : Project) ∉ [(⟨1, "org/a"⟩ : Project), ⟨3, "org/other/c"⟩] := by
  decide

/-- When every worker returned, none of them ended the process. -/
theorem firstFatal_of_childResults : ∀ (outs : List Outcome)
    (results : List (List Project × Option Err)),
    childResults outs = some results → firstFatal outs = none := by
  intro outs
  induction outs with
  | nil => intro _ _; rfl
  | cons o os ih =>
    intro results h
    cases o with
    | returned ps err =>
      simp only [childResults, Option.map_eq_some'] at h
      obtain ⟨rs, hrs, -⟩ := h
      simpa [firstFatal] using ih rs hrs
    | fatal m => simp [childResults] at h
    | stuck => simp [childResults] at h

/-- C2, as amended. Take a group whose direct listing and subgroup listing
succeed and whose subgroup workers all return; `results` are the pairs the
workers' own calls returned. Every subgroup has its worker. The traversal
returns under the schedule that receives every message before the completion
signal, and then yields the direct projects followed by the lists of the
workers whose own call returned a nil error, with the last worker error.
Under every schedule under which it returns, the returned list starts with
the direct projects, and together with what is still buffered in `projectsC`
at the return it is, as a multiset, the direct projects plus the lists of
exactly the nil-error workers. So the list of a worker whose call returned an
error is not merged. -/
theorem traversal_merges_nil_error_workers (remote : Remote) (fuel : Nat) (group : String)
    (kids : List Sched) (direct : List Project) (groups : List Group)
    (results : List (List Project × Option Err))
    (hdirect : listGroupProjects remote (fuel + 1) group = some (direct, none))
    (hsub : remote.ListSubgroups group = .ok groups)
    (hkids : kids.length = groups.length)
    (hres : childResults (List.zipWith
      (fun (g : Group) (k : Sched) => ListGroupProjects remote fuel g.FullPath k)
      groups kids) = some results) :
    results.length = groups.length ∧
      ListGroupProjects remote (fuel + 1) group (.mk (drainSchedule results) kids) =
        .returned (direct ++ okProjects results) (lastErr results none) ∧
      ∀ acts ps err,
        ListGroupProjects remote (fuel + 1) group (.mk acts kids) = .returned ps err →
        ∃ s, (TState.start direct results).run acts = some s ∧ s.returned = true ∧
          s.projects = ps ∧ s.err = err ∧ (∃ more, ps = direct ++ more) ∧
          List.Perm (ps ++ s.projectsC.getD []) (direct ++ okProjects results) := by
  have hnofatal := firstFatal_of_childResults _ _ hres
  have hunfold : ∀ acts, ListGroupProjects remote (fuel + 1) group (.mk acts kids) =
      match fanIn direct results acts with
      | none => .stuck
      | some (ps, err) => .returned ps err := by
    intro acts
    simp only [ListGroupProjects, hdirect, ListSubGroups, hsub, hnofatal, hres, hkids,
      ne_eq, not_true_eq_false, if_false]
  refine ⟨?_, ?_, ?_⟩
  · rw [childResults_length _ _ hres, List.length_zipWith]
    omega
  · rw [hunfold, fanIn_drainSchedule]
  · intro acts ps err hret
    rw [hunfold] at hret
    split at hret
    · cases hret
    · rename_i ps' err' hfan
      cases hret
      simp only [fanIn] at hfan
      split at hfan
      · cases hfan
      · rename_i s hs
        split at hfan
        · rename_i hr
          simp only [Option.some.injEq, Prod.mk.injEq] at hfan
          obtain ⟨hp, he⟩ := hfan
          have hinv := tinv_run direct results acts _ s (tinv_start direct results) hs
          have hperm := tinv_at_return direct results s hinv hr
          refine ⟨s, hs, hr, hp, he, ?_, ?_⟩
          · rw [← hp]; exact hinv.leading
          · rw [← hp]; exact hperm
        · cases hfan

/-- C2 at the root of `deepRemote`. When the worker for `org/team` received the
error of its subgroup, it returns that error and the root returns its own
project and the one of `org/other`. When the worker for `org/team` lost that
error and returned a nil error, the root returns all three projects with a
nil error. -/
theorem traversal_merges_nil_error_workers_witness :
    ([([(⟨2, "org/team/b"⟩ : Project)], some "403 Forbidden"),
        ([⟨3, "org/other/c"⟩], (none : Option Err))].length =
        [(⟨"org/team"⟩ : Group), ⟨"org/other"⟩].length ∧
      ListGroupProjects deepRemote 3 "org"
          (.mk (drainSchedule [([⟨2, "org/team/b"⟩], some "403 Forbidden"),
            ([⟨3, "org/other/c"⟩], none)]) [errDrainedSched, leafSched]) =
        .returned ([⟨1, "org/a"⟩] ++ okProjects [([⟨2, "org/team/b"⟩], some "403 Forbidden"),
            ([⟨3, "org/other/c"⟩], none)])
          (lastErr [([⟨2, "org/team/b"⟩], some "403 Forbidden"),
            ([⟨3, "org/other/c"⟩], none)] none) ∧
      ∀ acts ps err,
        ListGroupProjects deepRemote 3 "org" (.mk acts [errDrainedSched, leafSched]) =
          .returned ps err →
        ∃ s, (TState.start [⟨1, "org/a"⟩] [([⟨2, "org/team/b"⟩], some "403 Forbidden"),
            ([⟨3, "org/other/c"⟩], none)]).run acts = some s ∧ s.returned = true ∧
          s.projects = ps ∧ s.err = err ∧ (∃ more, ps = [⟨1, "org/a"⟩] ++ more) ∧
          List.Perm (ps ++ s.projectsC.getD [])
            ([⟨1, "org/a"⟩] ++ okProjects [([⟨2, "org/team/b"⟩], some "403 Forbidden"),
              ([⟨3, "org/other/c"⟩], none)])) ∧
      ListGroupProjects deepRemote 3 "org"
          (.mk (drainSchedule [([⟨2, "org/team/b"⟩], none), ([⟨3, "org/other/c"⟩], none)])
            [racedSched, leafSched]) =
        .returned ([⟨1, "org/a"⟩] ++
            okProjects [([⟨2, "org/team/b"⟩], none), ([⟨3, "org/other/c"⟩], none)])
          (lastErr [([⟨2, "org/team/b"⟩], none), ([⟨3, "org/other/c"⟩], none)] none) :=
  ⟨traversal_merges_nil_error_workers deepRemote 2 "org" [errDrainedSched, leafSched]
      [⟨1, "org/a"⟩] [⟨"org/team"⟩, ⟨"org/other"⟩]
      [([⟨2, "org/team/b"⟩], some "403 Forbidden"), ([⟨3, "org/other/c"⟩], none)]
      (by decide) rfl rfl (by decide),
    (traversal_merges_nil_error_workers deepRemote 2 "org" [racedSched, leafSched]
      [⟨1, "org/a"⟩] [⟨"org/team"⟩, ⟨"org/other"⟩]
      [([⟨2, "org/team/b"⟩], none), ([⟨3, "org/other/c"⟩], none)]
      (by decide) rfl rfl (by decide)).2.1⟩

/-- C3. With three projects of which only the second fails, the error is lost
under a legal schedule: it sits in the one-slot buffer of `errC` when the
select takes `case <-wC`. `Clone` returns two repositories and no error, so
the two slices hold two outcomes for three projects. When the select receives
the error first, it is returned. -/
theorem clone_buffered_error_lost :
    Clone secondFails directoryDefault "token" threeProjects lostErrorSched =
        some ([⟨"/tmp/gctl/org/a"⟩, ⟨"/tmp/gctl/org/c"⟩], []) ∧
      Clone secondFails directoryDefault "token" threeProjects keptErrorSched =
        some ([⟨"/tmp/gctl/org/a"⟩, ⟨"/tmp/gctl/org/c"⟩], ["repository already exists"]) := by
  decide

/-- C4. In every state `Clone` reaches, for every project list, clone
primitive and schedule: the workers between `sem.Acquire` and `sem.Release`
are exactly as many as permits are held, at most 10, so at most 10 workers
execute `git.PlainClone`; each of these workers obtained its permit;
`sem.Release` was never called without a permit; a release gives back exactly
one permit; with 10 permits held no further worker is admitted; `sem.Acquire`
cannot fail, so no worker enters the gate without a permit; a pending worker
is admitted whenever fewer than 10 permits are held, taking exactly one; a
worker that has called `wg.Done()` can run its deferred release, which gives
back exactly one permit; and every worker inside the gate, whether its clone
succeeds or fails, has a continuation that takes it out of the gate with
exactly one permit given back. -/
theorem clone_gate_bound (git : Git) (directory accessToken : String)
    (projects : List Project) (acts : List CAction) (s : CState)
    (h : (CState.start projects).run git directory accessToken acts = some s) :
    inGateCount s.workers = s.sem ∧ s.sem ≤ 10 ∧ inFlightCount s.workers ≤ 10 ∧
      (∀ w ∈ s.workers, w.inGate = true → w.permit = true) ∧
      s.panicked = false ∧
      (∀ i t, s.step git directory accessToken (.release i) = some t → t.sem + 1 = s.sem) ∧
      (s.sem = 10 → ∀ i, s.step git directory accessToken (.acquire i) = none) ∧
      (∀ i, s.step git directory accessToken (.acquireCancelled i) = none) ∧
      (∀ i w, s.workers[i]? = some w → w.phase = .pending → s.sem < 10 →
        ∃ t, s.step git directory accessToken (.acquire i) = some t ∧ t.sem = s.sem + 1 ∧
          t.workers[i]? = some { w with phase := .admitted, permit := true }) ∧
      (∀ i w, s.workers[i]? = some w → w.phase = .done →
        ∃ t, s.step git directory accessToken (.release i) = some t ∧ t.sem + 1 = s.sem ∧
          t.panicked = false ∧ t.workers[i]? = some { w with phase := .exited }) ∧
      (∀ i w, s.workers[i]? = some w → w.inGate = true →
        ∃ more t, s.run git directory accessToken more = some t ∧
          LeftGate s t i w.project) := by
  have hinv := cinv_run git directory accessToken acts _ s (cinv_start projects) h
  have hle : s.sem ≤ 10 := hinv.bound
  refine ⟨hinv.held.symm, hle, ?_, hinv.admitted, hinv.sound, ?_, ?_,
    acquire_never_cancelled git directory accessToken s hinv,
    fun i w hw hp hlt => acquire_enabled git directory accessToken s i w hw hp hlt,
    fun i w hw hp => release_enabled git directory accessToken s hinv i w hw hp,
    fun i w hw hin => leftGate_from_inGate git directory accessToken s hinv i w hw hin⟩
  · have := inFlightCount_le_inGateCount s.workers
    have := hinv.held
    omega
  · intro i t ht
    simp only [CState.step] at ht
    split at ht
    · cases ht
    · rename_i w hw
      split at ht
      · rename_i hp
        have hpos := inGateCount_pos s.workers i w hw (by simp [CWorker.inGate, hp])
        have := hinv.held
        split at ht
        · omega
        · cases ht
          simp only [CState.setWorker]
          omega
      · cases ht
  · intro h10 i
    simp only [CState.step]
    split
    · rfl
    · split
      · simp [h10, semSize]
      · rfl

/-- C4 at two runs. With eleven projects, after ten workers acquired the gate
ten permits are held by the ten workers inside it and the eleventh is not
admitted. With three projects of which the second clone fails, the failed
worker, once it has sent its error and called `wg.Done()`, runs its release
and gives back the one permit held. -/
theorem clone_gate_bound_witness :
    ((CState.start elevenProjects).run alwaysClones directoryDefault "token" tenAcquires =
        some tenAdmitted ∧
      inGateCount tenAdmitted.workers = tenAdmitted.sem ∧ tenAdmitted.sem ≤ 10 ∧
      tenAdmitted.step alwaysClones directoryDefault "token" (.acquire 10) = none) ∧
      (CState.start threeProjects).run secondFails directoryDefault "token" failedWorkerSched =
        some failedWorkerDone ∧
      (∃ t, failedWorkerDone.step secondFails directoryDefault "token" (.release 1) = some t ∧
        t.sem + 1 = failedWorkerDone.sem ∧ t.panicked = false ∧
        t.workers[1]? = some { project := ⟨2, "org/b"⟩, phase := .exited, permit := true }) :=
  have h := clone_gate_bound alwaysClones directoryDefault "token" elevenProjects tenAcquires
    tenAdmitted (by decide)
  have g := clone_gate_bound secondFails directoryDefault "token" threeProjects
    failedWorkerSched failedWorkerDone (by decide)
  ⟨⟨by decide, h.1, h.2.1, h.2.2.2.2.2.2.1 (by decide) 10⟩, by decide,
    g.2.2.2.2.2.2.2.2.2.1 1 { project := ⟨2, "org/b"⟩, phase := .done, permit := true }
      rfl rfl⟩

/-- C5. When the listing of a group consists of N >= 1 pages that are all
served, page i reporting current page i of N and (while i < N) next page
i + 1, `listGroupProjects` given at least N units of fuel starts at page 1
with page size 20 and the membership filter set, requests exactly the pages
1..N once each in that order, and returns the concatenation of the pages in
page order with a nil error. -/
theorem listGroupProjects_fetches_all_pages (remote : Remote) (group : String)
    (pages : List (List Project)) (hN : 1 ≤ pages.length)
    (h : ∀ i (hi : i < pages.length), ∃ np,
        remote.ListGroupProjects group (pageAt (i + 1)) =
          .ok (pages[i], { CurrentPage := ((i + 1 : Nat) : Int),
                           TotalPages := (pages.length : Int), NextPage := np }) ∧
        (i + 1 < pages.length → np = ((i + 2 : Nat) : Int)))
    (fuel : Nat) (hf : pages.length ≤ fuel) :
    listGroupProjectsTrace remote fuel group =
        some (pages.flatten, none, (List.range' 1 pages.length).map pageAt) ∧
      listGroupProjects remote fuel group = some (pages.flatten, none) ∧
      pageAt 1 = { ListOptions := { PerPage := 20, Page := 1 }, Membership := some true } := by
  have htrace : listGroupProjectsTrace remote fuel group =
      some (pages.flatten, none, (List.range' 1 pages.length).map pageAt) := by
    rcases List.eq_nil_or_concat pages with hnil | ⟨pre, last, hpages⟩
    · subst hnil; simp at hN
    · rw [List.concat_eq_append] at hpages
      subst hpages
      have hlen : (pre ++ [last]).length = pre.length + 1 := by simp
      obtain ⟨f, hfuel⟩ : ∃ f, fuel = (f + 1) + pre.length := ⟨fuel - pre.length - 1, by omega⟩
      have hadv := loop_advance remote group pre 0 [] [] (f + 1) (by
        intro i hi
        obtain ⟨np, hr, hnp⟩ := h i (by omega)
        refine ⟨⟨((i + 1 : Nat) : Int), ((pre ++ [last]).length : Int), np⟩, ?_, ?_, ?_⟩
        · rw [List.getElem_append_left hi] at hr
          simpa using hr
        · show ((i + 1 : Nat) : Int) < (((pre ++ [last]).length : Nat) : Int)
          omega
        · show np = _
          rw [hnp (by omega)]; simp)
      obtain ⟨np, hr, -⟩ := h pre.length (by omega)
      have hlast := loop_last remote group (pre.length + 1) last _ ([] ++ pre.flatten)
        ([] ++ (List.range' (0 + 1) pre.length).map pageAt) f
        (by simpa using hr) (by simp)
      unfold listGroupProjectsTrace
      have hstart : pageRequest 1 = pageAt (0 + 1) := rfl
      rw [hfuel, hstart, hadv]
      simp only [Nat.zero_add] at hlast ⊢
      rw [hlast]
      simp [List.range'_concat, Nat.add_comm]
  refine ⟨htrace, ?_, rfl⟩
  simp [listGroupProjects, htrace]

/-- C5 at a two-page listing: both pages are requested once, in order, and
their projects are returned in page order. -/
theorem listGroupProjects_fetches_all_pages_witness :
    listGroupProjectsTrace twoPageRemote 2 "org" =
        some ([[⟨1, "org/a"⟩], [⟨2, "org/b"⟩]].flatten, none,
          (List.range' 1 [[(⟨1, "org/a"⟩ : Project)], [⟨2, "org/b"⟩]].length).map pageAt) ∧
      listGroupProjects twoPageRemote 2 "org" =
        some ([[⟨1, "org/a"⟩], [⟨2, "org/b"⟩]].flatten, none) ∧
      pageAt 1 = { ListOptions := { PerPage := 20, Page := 1 }, Membership := some true } :=
  listGroupProjects_fetches_all_pages twoPageRemote "org"
    [[⟨1, "org/a"⟩], [⟨2, "org/b"⟩]] (by decide)
    (by
      intro i hi
      have hi2 : i < 2 := hi
      interval_cases i
      · exact ⟨2, rfl, fun _ => rfl⟩
      · exact ⟨0, rfl, fun hlt => absurd hlt (by decide)⟩)
    2 (by decide)

/-- C6, as amended. When the pages before page k of a group's direct listing
are served (each reporting more pages and pointing at its successor) and the
fetch of page k fails, `listGroupProjects` returns that error together with
the concatenation of the pages fetched before the failure;
`ListGroupProjects` returns the same pair under every schedule and whatever
the subgroup listing would answer, so no subgroup is listed or traversed. -/
theorem listing_failure_returns_fetched_pages (remote : Remote) (group : String)
    (before : List (List Project)) (err : Err)
    (h : ∀ i (hi : i < before.length), ∃ resp,
        remote.ListGroupProjects group (pageAt (i + 1)) = .ok (before[i], resp) ∧
        resp.CurrentPage < resp.TotalPages ∧ resp.NextPage = ((i + 2 : Nat) : Int))
    (hfail : remote.ListGroupProjects group (pageAt (before.length + 1)) = .error err)
    (fuel : Nat) (hf : before.length < fuel)
    (subgroups : String → Except Err (List Group)) (sched : Sched) :
    listGroupProjects remote fuel group = some (before.flatten, some err) ∧
      ListGroupProjects { remote with ListSubgroups := subgroups } fuel group sched =
        .returned before.flatten (some err) := by
  obtain ⟨f, hfuel⟩ : ∃ f, fuel = (f + 1) + before.length := ⟨fuel - before.length - 1, by omega⟩
  have hloop : ∀ r : Remote, r.ListGroupProjects = remote.ListGroupProjects →
      listGroupProjects r fuel group = some (before.flatten, some err) := by
    intro r hr
    have hadv := loop_advance r group before 0 [] [] (f + 1) (by
      intro i hi
      obtain ⟨resp, h1, h2, h3⟩ := h i hi
      exact ⟨resp, by rw [hr]; simpa using h1, h2, by simpa using h3⟩)
    have herr := loop_error r group (before.length + 1) err ([] ++ before.flatten)
      ([] ++ (List.range' (0 + 1) before.length).map pageAt) f (by rw [hr]; exact hfail)
    have hstart : pageRequest 1 = pageAt (0 + 1) := rfl
    unfold listGroupProjects listGroupProjectsTrace
    rw [hfuel, hstart, hadv]
    simp only [Nat.zero_add] at herr ⊢
    rw [herr]
    simp
  refine ⟨hloop remote rfl, ?_⟩
  have hl := hloop { remote with ListSubgroups := subgroups } rfl
  obtain ⟨acts, kids⟩ := sched
  have e : f + 1 + before.length = (f + before.length) + 1 := by omega
  rw [hfuel, e] at hl ⊢
  simp only [ListGroupProjects, hl]

/-- C6 at a listing whose second page fails and whose subgroup listing would
fail too: the first page is returned with the error of the second. -/
theorem listing_failure_returns_fetched_pages_witness :
    listGroupProjects brokenPageRemote 2 "org" =
        some ([[(⟨1, "org/a"⟩ : Project)]].flatten, some "502 Bad Gateway") ∧
      ListGroupProjects
          { brokenPageRemote with ListSubgroups := fun _ => .error "500 Internal Server Error" }
          2 "org" leafSched =
        .returned [[(⟨1, "org/a"⟩ : Project)]].flatten (some "502 Bad Gateway") :=
  listing_failure_returns_fetched_pages brokenPageRemote "org" [[⟨1, "org/a"⟩]]
    "502 Bad Gateway"
    (by
      intro i hi
      have hi1 : i < 1 := hi
      interval_cases i
      exact ⟨{ CurrentPage := 1, TotalPages := 2, NextPage := 2 }, rfl, by decide, rfl⟩)
    rfl 2 (by decide) (fun _ => .error "500 Internal Server Error") leafSched

/-- C6 as stated fails: after page 1 was served and page 2 failed, both
functions return the project of page 1 with the error, not an empty list. -/
theorem listing_failure_keeps_earlier_pages :
    listGroupProjects brokenPageRemote 2 "org" =
        some ([⟨1, "org/a"⟩], some "502 Bad Gateway") ∧
      ListGroupProjects brokenPageRemote 2 "org" leafSched =
        .returned [⟨1, "org/a"⟩] (some "502 Bad Gateway") ∧
      ([⟨1, "org/a"⟩] : List Project) ≠ [] := by
  decide

/-- C7 as stated fails at its own witness: with the default root `/tmp/gctl/`
the destination of `org/a` is `/tmp/gctl/org/a`, which is not the root
followed by a slash and the namespace path (`/tmp/gctl//org/a`). -/
theorem default_root_destination_is_cleaned :
    clonePath directoryDefault ⟨1, "org/a"⟩ = "/tmp/gctl/org/a" ∧
      directoryDefault ++ "/" ++ (⟨1, "org/a"⟩ : Project).PathWithNamespace = "/tmp/gctl//org/a" ∧
      clonePath directoryDefault ⟨1, "org/a"⟩ ≠
        directoryDefault ++ "/" ++ (⟨1, "org/a"⟩ : Project).PathWithNamespace := by
  decide

/-- C7, as amended. The destination `Clone` uses for a project is
`filepath.Clean(root) + "/" + p.PathWithNamespace`: when an admitted worker
runs, the progress line is `Cloning: ` followed by that path, the clone
primitive is called with that path, and nothing else of the state enters it. -/
theorem clone_destination_is_cleaned_root (git : Git) (directory accessToken : String)
    (s : CState) (i : Nat) (w : CWorker)
    (hw : s.workers[i]? = some w) (hp : w.phase = .admitted) :
    ∃ t, s.step git directory accessToken (.clone i) = some t ∧
      t.log = s.log ++ ["Cloning: " ++ (Clean directory ++ "/" ++ w.project.PathWithNamespace)] ∧
      t.workers[i]? = some { w with
        phase := .cloned (git i (Clean directory ++ "/" ++ w.project.PathWithNamespace)
          (cloneOptions accessToken w.project)) } := by
  have hi : i < s.workers.length := by
    rcases Nat.lt_or_ge i s.workers.length with h | h
    · exact h
    · rw [List.getElem?_eq_none h] at hw; cases hw
  simp only [CState.step, hw, hp]
  refine ⟨_, rfl, rfl, ?_⟩
  simp [CState.setWorker, List.getElem?_set, hi, clonePath]

/-- C7 at the default root: the admitted worker for `org/a` logs and clones
into `/tmp/gctl/org/a`. -/
theorem clone_destination_is_cleaned_root_witness :
    ∃ t, ({ CState.start [⟨1, "org/a"⟩] with
            workers := [{ project := ⟨1, "org/a"⟩, phase := .admitted, permit := true }]
            sem := 1 } : CState).step alwaysClones directoryDefault "token" (.clone 0) = some t ∧
      t.log = [] ++ ["Cloning: " ++ (Clean directoryDefault ++ "/" ++ "org/a")] ∧
      t.workers[0]? = some
        { project := ⟨1, "org/a"⟩
          phase := .cloned (alwaysClones 0 (Clean directoryDefault ++ "/" ++ "org/a")
            (cloneOptions "token" ⟨1, "org/a"⟩))
          permit := true } :=
  clone_destination_is_cleaned_root alwaysClones directoryDefault "token"
    { CState.start [⟨1, "org/a"⟩] with
      workers := [{ project := ⟨1, "org/a"⟩, phase := .admitted, permit := true }]
      sem := 1 }
    0 { project := ⟨1, "org/a"⟩, phase := .admitted, permit := true } rfl rfl

/-- C8 as stated fails. In `brokenSubgroupsRemote` the subgroup listing of
`org/team` fails: the traversal of `org/team` ends the process, and so does
the traversal of the root, although the sibling `org/other` delivered its
projects. No error value and no project list is returned. -/
theorem subgroup_listing_failure_exits :
    ListGroupProjects brokenSubgroupsRemote 2 "org/team" leafSched =
        .fatal "500 Internal Server Error" ∧
      ListGroupProjects brokenSubgroupsRemote 3 "org" siblingSched =
        .fatal "500 Internal Server Error" := by
  decide

/-- C8, as amended. A failure while listing the subgroups of a group whose
direct listing succeeded ends the whole process through `log.Fatal` with that
failure; and a traversal one of whose workers ended the process ends the
process too, under every schedule. So such a failure anywhere in the tree
reaches the root: no call returns an error value for it and nothing is merged. -/
theorem subgroup_listing_failure_ends_process (remote : Remote) (fuel : Nat) (group : String)
    (acts : List TAction) (kids : List Sched) (direct : List Project)
    (hdirect : listGroupProjects remote (fuel + 1) group = some (direct, none))
    (hfail : (∃ msg, remote.ListSubgroups group = .error msg) ∨
      (∃ (groups : List Group) (i : Nat) (g : Group) (k : Sched) (m : Err),
        remote.ListSubgroups group = .ok groups ∧
        groups[i]? = some g ∧ kids[i]? = some k ∧
        ListGroupProjects remote fuel g.FullPath k = .fatal m)) :
    ∃ m, ListGroupProjects remote (fuel + 1) group (.mk acts kids) = .fatal m ∧
      ∀ msg, remote.ListSubgroups group = .error msg → m = msg := by
  rcases hfail with ⟨msg, hmsg⟩ | ⟨groups, i, g, k, m, hsub, hg, hk, hm⟩
  · refine ⟨msg, ?_, ?_⟩
    · simp only [ListGroupProjects, hdirect, ListSubGroups, hmsg]
    · intro msg' h'
      rw [hmsg] at h'
      cases h'
      rfl
  · have hz : (List.zipWith (fun (g : Group) (k : Sched) =>
        ListGroupProjects remote fuel g.FullPath k) groups kids)[i]? = some (.fatal m) := by
      rw [List.getElem?_zipWith, hg, hk]
      simp [hm]
    obtain ⟨m', hm'⟩ := firstFatal_of_fatal _ i m hz
    refine ⟨m', ?_, ?_⟩
    · simp only [ListGroupProjects, hdirect, ListSubGroups, hsub, hm']
    · intro msg' h'
      rw [hsub] at h'
      cases h'

/-- C8 at `brokenSubgroupsRemote`: the worker for `org/team` ends the process,
so the traversal of `org` does. -/
theorem subgroup_listing_failure_ends_process_witness :
    ∃ m, ListGroupProjects brokenSubgroupsRemote 3 "org"
          (.mk [.send 1, .recvProjects, .done 1] [leafSched, leafSched]) = .fatal m ∧
      ∀ msg, brokenSubgroupsRemote.ListSubgroups "org" = .error msg → m = msg :=
  subgroup_listing_failure_ends_process brokenSubgroupsRemote 2 "org"
    [.send 1, .recvProjects, .done 1] [leafSched, leafSched] [⟨1, "org/a"⟩] (by decide)
    (Or.inr ⟨[⟨"org/team"⟩, ⟨"org/other"⟩], 0, ⟨"org/team"⟩, leafSched,
      "500 Internal Server Error", rfl, rfl, rfl, by decide⟩)

/-- C9 as stated fails. On `deepRemote` the root listing succeeds and the
traversal returns two projects together with the error of a subgroup subtree:
both commands end in `log.Fatalln` with that error; `Clone` is not called and
no path is printed. -/
theorem subtree_error_is_fatal_to_commands :
    ListGroupProjects deepRemote 3 "org" deepSched =
        .returned [⟨1, "org/a"⟩, ⟨3, "org/other/c"⟩] (some "403 Forbidden") ∧
      cloneCmd deepEnv = [.fatal "403 Forbidden"] ∧
      treeCmd deepTreeEnv = [.fatal "403 Forbidden"] := by
  decide

/-- C9, as amended. Whenever the traversal returns a non-nil error, from the
root group's own listing or from a subgroup subtree, both commands end in
`log.Fatalln` with that error: the list command prints nothing and the clone
command does not call `Clone`. When the traversal returns a nil error the
list command prints the namespace paths of the returned projects and the
clone command calls `Clone` on exactly the returned projects. The list
command reads the token and the group only; the clone command reads the
directory as well. -/
theorem commands_proceed_only_on_nil_error (env : Env) (accessToken group : String)
    (projects : List Project) (err : Option Err)
    (htoken : env.flags "gitlab_access_token" = .ok accessToken)
    (hgroup : env.flags "group" = .ok group)
    (hret : ListGroupProjects (env.connect accessToken) env.fuel group env.sched =
      .returned projects err) :
    match err with
    | some e =>
      treeCmd env = [.fatal e] ∧
        ∀ directory, env.flags "directory" = .ok directory → cloneCmd env = [.fatal e]
    | none =>
      (treeCmd env = projects.map fun project => .println project.PathWithNamespace) ∧
        ∀ directory, env.flags "directory" = .ok directory →
          (cloneCmd env).head? = some (.cloneCalled directory accessToken projects) := by
  cases err with
  | some e =>
    refine ⟨by simp [treeCmd, htoken, hgroup, hret], ?_⟩
    intro directory hdir
    simp [cloneCmd, htoken, hdir, hgroup, hret]
  | none =>
    refine ⟨by simp [treeCmd, htoken, hgroup, hret], ?_⟩
    intro directory hdir
    simp only [cloneCmd, htoken, hdir, hgroup, hret]
    split
    · rfl
    · split <;> rfl

/-- C9 at four runs. On `deepRemote`, where a subgroup subtree failed, the
list command (run with the flags it defines) and the clone command end in
`log.Fatalln`. On `orgRemote`, where the traversal returns a nil error, the
list command prints both paths and the clone command calls `Clone` on both
projects. -/
theorem commands_proceed_only_on_nil_error_witness :
    (treeCmd deepTreeEnv = [.fatal "403 Forbidden"] ∧
      cloneCmd deepEnv = [.fatal "403 Forbidden"]) ∧
      treeCmd orgTreeEnv = [.println "org/a", .println "org/team/b"] ∧
      (cloneCmd orgEnv).head? =
        some (.cloneCalled directoryDefault "token" [⟨1, "org/a"⟩, ⟨2, "org/team/b"⟩]) :=
  ⟨⟨(commands_proceed_only_on_nil_error deepTreeEnv "token" "org"
        [⟨1, "org/a"⟩, ⟨3, "org/other/c"⟩] (some "403 Forbidden") rfl rfl (by decide)).1,
      (commands_proceed_only_on_nil_error deepEnv "token" "org"
        [⟨1, "org/a"⟩, ⟨3, "org/other/c"⟩] (some "403 Forbidden") rfl rfl (by decide)).2
        directoryDefault rfl⟩,
    (commands_proceed_only_on_nil_error orgTreeEnv "token" "org"
      [⟨1, "org/a"⟩, ⟨2, "org/team/b"⟩] none rfl rfl (by decide)).1,
    (commands_proceed_only_on_nil_error orgEnv "token" "org"
      [⟨1, "org/a"⟩, ⟨2, "org/team/b"⟩] none rfl rfl (by decide)).2 directoryDefault rfl⟩

/-- C10. With a single subgroup worker that fails, the call returns a nil
error under a legal schedule: the worker puts its error into the one-slot
buffer of `errC`, calls `wg.Done()`, the waiter closes `wC`, and the select
takes `case <-wC`. When the select receives the error first, it is returned. -/
theorem traversal_buffered_error_lost :
    ListGroupProjects deepRemote 2 "org/team" racedSched =
        .returned [⟨2, "org/team/b"⟩] none ∧
      ListGroupProjects deepRemote 1 "org/team/sub" leafSched =
        .returned [] (some "403 Forbidden") ∧
      ListGroupProjects deepRemote 2 "org/team" errDrainedSched =
        .returned [⟨2, "org/team/b"⟩] (some "403 Forbidden") := by
  decide

/-! ## Termination of the traversal -/

theorem stepsLeft_set (ws : List TWorker) (i : Nat) (w v : TWorker) (h : ws[i]? = some w) :
    ((ws.set i v).map TWorker.stepsLeft).sum + w.stepsLeft =
      (ws.map TWorker.stepsLeft).sum + v.stepsLeft :=
  sum_map_set TWorker.stepsLeft ws i w v h

/-- Every enabled step of the fan-in uses up one of the steps left. -/
theorem stepsLeft_step (s t : TState) (a : TAction) (hstep : s.step a = some t) :
    t.stepsLeft + 1 = s.stepsLeft := by
  cases a with
  | send i =>
    simp only [TState.step] at hstep
    split at hstep
    · cases hstep
    · rename_i w hw
      split at hstep
      · rename_i e hp he
        split at hstep
        · rename_i hc
          cases hstep
          have hs := stepsLeft_set s.workers i w { w with phase := .sent } hw
          simp only [TWorker.stepsLeft, hp] at hs
          simp only [TState.stepsLeft, hc]
          omega
        · cases hstep
      · rename_i hp he
        split at hstep
        · rename_i hc
          cases hstep
          have hs := stepsLeft_set s.workers i w { w with phase := .sent } hw
          simp only [TWorker.stepsLeft, hp] at hs
          simp only [TState.stepsLeft, hc]
          omega
        · cases hstep
      · cases hstep
  | done i =>
    simp only [TState.step] at hstep
    split at hstep
    · cases hstep
    · rename_i w hw
      split at hstep
      · rename_i hp
        cases hstep
        have hs := stepsLeft_set s.workers i w { w with phase := .done } hw
        simp only [TWorker.stepsLeft, hp] at hs
        simp only [TState.stepsLeft]
        omega
      · cases hstep
  | closeW =>
    simp only [TState.step] at hstep
    split at hstep
    · rename_i hwg hwc
      cases hstep
      simp only [TState.stepsLeft, hwc, Bool.false_eq_true, if_false, if_true]
      omega
    · cases hstep
  | recvProjects =>
    simp only [TState.step] at hstep
    split at hstep
    · rename_i ps hr hc
      cases hstep
      simp only [TState.stepsLeft, hc]
      omega
    · cases hstep
  | recvErr =>
    simp only [TState.step] at hstep
    split at hstep
    · rename_i e hr hc
      cases hstep
      simp only [TState.stepsLeft, hc]
      omega
    · cases hstep
  | ret =>
    simp only [TState.step] at hstep
    split at hstep
    · rename_i hr hwc
      cases hstep
      simp only [TState.stepsLeft, hr, Bool.false_eq_true, if_false, if_true]
    · cases hstep

/-- A run of the fan-in is as long as the steps it used up. -/
theorem stepsLeft_run : ∀ (acts : List TAction) (s t : TState),
    s.run acts = some t → t.stepsLeft + acts.length = s.stepsLeft := by
  intro acts
  induction acts with
  | nil =>
    intro s t h
    simp only [TState.run, Option.some.injEq] at h
    subst h
    rfl
  | cons a as ih =>
    intro s t h
    simp only [TState.run] at h
    split at h
    · cases h
    · rename_i u hu
      have h1 := stepsLeft_step s u a hu
      have h2 := ih u t h
      simp only [List.length_cons]
      omega

theorem stepsLeft_start (direct : List Project) (results : List (List Project × Option Err)) :
    (TState.start direct results).stepsLeft = 3 * results.length + 2 := by
  have hw : ((TState.start direct results).workers.map TWorker.stepsLeft).sum =
      3 * results.length := by
    simp only [TState.start]
    induction results with
    | nil => rfl
    | cons r rs ih =>
      simp only [List.map_cons, List.sum_cons, List.length_cons, TWorker.stepsLeft] at ih ⊢
      omega
  simp only [TState.stepsLeft, hw]
  simp [TState.start]

theorem exists_not_done : ∀ ws : List TWorker, notDoneCount ws ≠ 0 →
    ∃ (i : Nat) (w : TWorker), ws[i]? = some w ∧ w.phase ≠ .done := by
  intro ws
  induction ws with
  | nil => intro h; exact absurd rfl h
  | cons x xs ih =>
    intro h
    by_cases hx : x.phase = .done
    · have hxs : notDoneCount xs ≠ 0 := by
        intro h0
        apply h
        simp only [notDoneCount, List.map_cons, List.sum_cons, hx, if_true] at h0 ⊢
        omega
      obtain ⟨i, w, hw, hp⟩ := ih hxs
      exact ⟨i + 1, w, by simpa using hw, hp⟩
    · exact ⟨0, x, by simp, hx⟩

/-- The fan-in never blocks before its return: in every reachable state in
which line 110 was not yet executed some goroutine can take a step. -/
theorem fan_progress (direct : List Project) (results : List (List Project × Option Err))
    (s : TState) (hinv : TInv direct results s) (hr : s.returned = false) :
    ∃ a t, s.step a = some t := by
  have key : ∃ a, (s.step a).isSome = true := by
    cases hP : s.projectsC with
    | some ps => exact ⟨.recvProjects, by simp [TState.step, hr, hP]⟩
    | none =>
      cases hE : s.errC with
      | some e => exact ⟨.recvErr, by simp [TState.step, hr, hE]⟩
      | none =>
        by_cases h0 : notDoneCount s.workers = 0
        · have hwg : s.wg = 0 := by rw [hinv.waiting]; exact h0
          cases hc : s.wC with
          | false => exact ⟨.closeW, by simp [TState.step, hwg, hc]⟩
          | true => exact ⟨.ret, by simp [TState.step, hr, hc]⟩
        · obtain ⟨i, w, hw, hp⟩ := exists_not_done s.workers h0
          cases hph : w.phase with
          | ready =>
            cases he : w.err with
            | none => exact ⟨.send i, by simp [TState.step, hw, hph, he, hP]⟩
            | some e => exact ⟨.send i, by simp [TState.step, hw, hph, he, hE]⟩
          | sent => exact ⟨.done i, by simp [TState.step, hw, hph]⟩
          | done => exact absurd hph hp
  obtain ⟨a, ha⟩ := key
  exact ⟨a, Option.isSome_iff_exists.mp ha⟩

/-- With fuel for every page, a page-consistent listing is returned whole with
a nil error. -/
theorem listGroupProjects_of_pages (remote : Remote) (group : String)
    (pages : List (List Project)) (h : PageConsistent remote group pages)
    (fuel : Nat) (hf : pages.length ≤ fuel) :
    listGroupProjects remote fuel group = some (pages.flatten, none) := by
  obtain ⟨hN, hpages⟩ := h
  rcases List.eq_nil_or_concat pages with hnil | ⟨pre, last, hcat⟩
  · subst hnil; simp at hN
  · rw [List.concat_eq_append] at hcat
    subst hcat
    have hlen : (pre ++ [last]).length = pre.length + 1 := by simp
    obtain ⟨f, hfuel⟩ : ∃ f, fuel = (f + 1) + pre.length := ⟨fuel - pre.length - 1, by omega⟩
    have hadv := loop_advance remote group pre 0 [] [] (f + 1) (by
      intro i hi
      obtain ⟨np, hr, hnp⟩ := hpages i (by omega)
      refine ⟨⟨((i + 1 : Nat) : Int), ((pre ++ [last]).length : Int), np⟩, ?_, ?_, ?_⟩
      · rw [List.getElem_append_left hi] at hr
        simpa using hr
      · show ((i + 1 : Nat) : Int) < (((pre ++ [last]).length : Nat) : Int)
        omega
      · show np = _
        rw [hnp (by omega)]; simp)
    obtain ⟨np, hr, -⟩ := hpages pre.length (by omega)
    have hlast := loop_last remote group (pre.length + 1) last _ ([] ++ pre.flatten)
      ([] ++ (List.range' (0 + 1) pre.length).map pageAt) f
      (by simpa using hr) (by simp)
    unfold listGroupProjects listGroupProjectsTrace
    have hstart : pageRequest 1 = pageAt (0 + 1) := rfl
    rw [hfuel, hstart, hadv]
    simp only [Nat.zero_add] at hlast ⊢
    rw [hlast]
    simp

/-- Once the direct listing and the subgroup listing succeeded and every
worker returned, the traversal is the fan-in on the workers' pairs. -/
theorem ListGroupProjects_fanIn (remote : Remote) (fuel : Nat) (group : String)
    (kids : List Sched) (direct : List Project) (groups : List Group)
    (results : List (List Project × Option Err))
    (hdirect : listGroupProjects remote (fuel + 1) group = some (direct, none))
    (hsub : remote.ListSubgroups group = .ok groups)
    (hkids : kids.length = groups.length)
    (hres : childResults (List.zipWith
      (fun (g : Group) (k : Sched) => ListGroupProjects remote fuel g.FullPath k)
      groups kids) = some results) (acts : List TAction) :
    ListGroupProjects remote (fuel + 1) group (.mk acts kids) =
      match fanIn direct results acts with
      | none => .stuck
      | some (ps, err) => .returned ps err := by
  have hnofatal := firstFatal_of_childResults _ _ hres
  simp only [ListGroupProjects, hdirect, ListSubGroups, hsub, hnofatal, hres, hkids,
    ne_eq, not_true_eq_false, if_false]

/-- When every subgroup has a schedule under which its traversal returns a
nil error, the schedules can be put together, one per worker. -/
theorem children_return (F : Group → Sched → Outcome) :
    ∀ groups : List Group,
      (∀ g ∈ groups, ∃ k ps, F g k = .returned ps none) →
      ∃ (kids : List Sched) (results : List (List Project × Option Err)),
        kids.length = groups.length ∧
        childResults (List.zipWith F groups kids) = some results ∧
        lastErr results none = none := by
  intro groups
  induction groups with
  | nil => intro _; exact ⟨[], [], rfl, rfl, rfl⟩
  | cons g gs ih =>
    intro h
    obtain ⟨k, ps, hk⟩ := h g (List.mem_cons_self g gs)
    obtain ⟨kids, results, hlen, hres, hlast⟩ :=
      ih (fun x hx => h x (List.mem_cons_of_mem g hx))
    refine ⟨k :: kids, (ps, none) :: results, by simp [hlen], ?_, ?_⟩
    · simp [List.zipWith, childResults, hk, hres]
    · simpa [lastErr] using hlast

/-- Below a group that heads a finite tree with page-consistent listings the
traversal returns a nil error, given fuel for the height and the pages. -/
theorem finiteTree_returns (remote : Remote) (maxPages : Nat) :
    ∀ (depth : Nat) (group : String), FiniteTree remote maxPages depth group →
      ∀ fuel, depth + maxPages ≤ fuel →
        ∃ sched ps, ListGroupProjects remote fuel group sched = .returned ps none := by
  intro depth
  induction depth with
  | zero => intro group h; exact absurd h (by simp [FiniteTree])
  | succ d ih =>
    intro group h fuel hfuel
    obtain ⟨⟨pages, hpages, hlen⟩, groups, hsub, hbelow⟩ := h
    obtain ⟨f, rfl⟩ : ∃ f, fuel = f + 1 := ⟨fuel - 1, by omega⟩
    have hdirect := listGroupProjects_of_pages remote group pages hpages (f + 1) (by omega)
    obtain ⟨kids, results, hkids, hres, hlast⟩ :=
      children_return (fun g k => ListGroupProjects remote f g.FullPath k) groups
        (fun g hg => ih g.FullPath (hbelow g hg) f (by omega))
    refine ⟨.mk (drainSchedule results) kids, pages.flatten ++ okProjects results, ?_⟩
    rw [ListGroupProjects_fanIn remote f group kids pages.flatten groups results hdirect hsub
      hkids hres, fanIn_drainSchedule, hlast]

/-- Without workers the fan-in has a single complete execution: the waiter
closes `wC` and the select returns the direct listing with a nil error. -/
theorem fanIn_no_workers (direct : List Project) (acts : List TAction)
    (r : List Project × Option Err) (h : fanIn direct [] acts = some r) :
    acts = [.closeW, .ret] ∧ r = (direct, none) := by
  cases acts with
  | nil => simp [fanIn, TState.run, TState.start] at h
  | cons a as =>
    cases a <;> simp [fanIn, TState.run, TState.step, TState.start] at h
    cases as with
    | nil => simp [fanIn, TState.run, TState.start] at h
    | cons b bs =>
      cases b <;> simp [fanIn, TState.run, TState.step, TState.start] at h
      cases bs with
      | nil =>
        simp [TState.run] at h
        exact ⟨rfl, h.symm⟩
      | cons c cs => cases c <;> simp [TState.run, TState.step] at h

/-- In scenario A the leaf `org/team` heads a tree of height 1. -/
theorem orgRemote_leaf : FiniteTree orgRemote 1 1 "org/team" := by
  refine ⟨⟨[[⟨2, "org/team/b"⟩]], ⟨by decide, ?_⟩, by decide⟩, [], rfl, ?_⟩
  · intro i hi
    have hi1 : i < 1 := hi
    interval_cases i
    exact ⟨0, rfl, fun hlt => absurd hlt (by decide)⟩
  · intro g hg
    cases hg

/-- In scenario A the root `org` heads a tree of height 2. -/
theorem orgRemote_root : FiniteTree orgRemote 1 2 "org" := by
  refine ⟨⟨[[⟨1, "org/a"⟩]], ⟨by decide, ?_⟩, by decide⟩, [⟨"org/team"⟩], rfl, ?_⟩
  · intro i hi
    have hi1 : i < 1 := hi
    interval_cases i
    exact ⟨0, rfl, fun hlt => absurd hlt (by decide)⟩
  · intro g hg
    simp only [List.mem_singleton] at hg
    subst hg
    exact orgRemote_leaf

/-- C11. Take a remote whose subgroup relation below `root` is finite, of
height at most `depth`, and whose project listings are page-consistent with
at most `maxPages` pages. Given fuel for the height and the pages,
`ListGroupProjects(root)` returns, with a nil error, under some schedule; no
schedule makes a fan-in run on or block: every run of a fan-in with n workers
has at most 3n + 2 steps, and in every state reached before the return some
goroutine can step. In the base case of a root without subgroups the fan-in
starts with no worker, its only complete execution is that the waiter closes
`wC` and the select returns, and the call returns exactly the direct listing
of the root (the concatenation of its pages) with a nil error. -/
theorem traversal_terminates (remote : Remote) (maxPages depth : Nat) (root : String)
    (htree : FiniteTree remote maxPages depth root) (fuel : Nat)
    (hfuel : depth + maxPages ≤ fuel) :
    (∃ sched ps, ListGroupProjects remote fuel root sched = .returned ps none) ∧
      (∀ direct results acts s, (TState.start direct results).run acts = some s →
        acts.length ≤ 3 * results.length + 2 ∧
          (s.returned = false → ∃ a t, s.step a = some t)) ∧
      (remote.ListSubgroups root = .ok [] →
        ∃ pages, PageConsistent remote root pages ∧
          (TState.start pages.flatten []).workers = [] ∧
          ListGroupProjects remote fuel root leafSched = .returned pages.flatten none ∧
          ∀ acts kids ps err,
            ListGroupProjects remote fuel root (.mk acts kids) = .returned ps err →
            acts = [.closeW, .ret] ∧ kids = [] ∧ ps = pages.flatten ∧ err = none) := by
  refine ⟨finiteTree_returns remote maxPages depth root htree fuel hfuel, ?_, ?_⟩
  · intro direct results acts s hrun
    have hlen := stepsLeft_run acts _ s hrun
    rw [stepsLeft_start] at hlen
    have hinv := tinv_run direct results acts _ s (tinv_start direct results) hrun
    exact ⟨by omega, fan_progress direct results s hinv⟩
  · intro hsub
    cases depth with
    | zero => exact absurd htree (by simp [FiniteTree])
    | succ d =>
      obtain ⟨⟨pages, hpages, hlen⟩, -⟩ := htree
      obtain ⟨f, rfl⟩ : ∃ f, fuel = f + 1 := ⟨fuel - 1, by omega⟩
      have hdirect := listGroupProjects_of_pages remote root pages hpages (f + 1) (by omega)
      have hfan : ∀ acts kids, kids.length = ([] : List Group).length →
          ListGroupProjects remote (f + 1) root (.mk acts kids) =
            match fanIn pages.flatten [] acts with
            | none => .stuck
            | some (ps, err) => .returned ps err := fun acts kids hk =>
        ListGroupProjects_fanIn remote f root kids pages.flatten [] [] hdirect hsub hk rfl acts
      refine ⟨pages, hpages, rfl, ?_, ?_⟩
      · show ListGroupProjects remote (f + 1) root (.mk [.closeW, .ret] []) = _
        rw [hfan _ [] rfl]
        rfl
      · intro acts kids ps err hret
        have hk : kids = [] := by
          cases kids with
          | nil => rfl
          | cons k ks =>
            simp [ListGroupProjects, hdirect, ListSubGroups, hsub, firstFatal] at hret
        subst hk
        rw [hfan acts [] rfl] at hret
        split at hret
        · cases hret
        · rename_i ps' err' hf
          cases hret
          obtain ⟨hacts, hr⟩ := fanIn_no_workers pages.flatten acts (ps, err) hf
          simp only [Prod.mk.injEq] at hr
          exact ⟨hacts, rfl, hr.1, hr.2⟩

/-- C11 at scenario A: the traversal of `org` returns with a nil error, and the
traversal of the leaf `org/team` returns its own listing with no worker. -/
theorem traversal_terminates_witness :
    (∃ sched ps, ListGroupProjects orgRemote 3 "org" sched = .returned ps none) ∧
      (∃ pages, PageConsistent orgRemote "org/team" pages ∧
        (TState.start pages.flatten []).workers = [] ∧
        ListGroupProjects orgRemote 2 "org/team" leafSched = .returned pages.flatten none ∧
        ∀ acts kids ps err,
          ListGroupProjects orgRemote 2 "org/team" (.mk acts kids) = .returned ps err →
          acts = [.closeW, .ret] ∧ kids = [] ∧ ps = pages.flatten ∧ err = none) :=
  ⟨(traversal_terminates orgRemote 1 2 "org" orgRemote_root 3 (by decide)).1,
    (traversal_terminates orgRemote 1 1 "org/team" orgRemote_leaf 2 (by decide)).2.2 rfl⟩

end Gctl
